import Mathlib

/-!
Verification of the hook-orchestration engine of `codex-rs/core/src/hooks`:
a shallow embedding, in Lean 4, of the dependency graph (`dependency.rs`),
the retry/timeout/cancellation wrapper and result aggregation
(`executor.rs`), and the manager's trigger path (`manager.rs`), together
with theorems settling the specification's claims about them.

Modelling conventions:
* Rust `Duration` values are modelled as `Nat` (a count of time units);
  wall-clock readings (`Instant::now`, `elapsed`) are abstracted to `0` —
  no claim below constrains them.
* Rust `f64` arithmetic (the success rate) is modelled as exact rationals.
* `HashMap`/`HashSet` are modelled as association lists whose iteration
  order is insertion order; Rust's iteration order is arbitrary, so
  theorems about concrete map contents fix one such order.
* Asynchronous execution is modelled by its deterministic data flow:
  `join_all` yields results in the order the futures were created, which
  is what the source relies on; each capability's behaviour enters as an
  explicit oracle argument.
-/

namespace Hooks

/-- Execution mode of a hook (`HookExecutionMode` in types.rs, used
throughout src/): blocking, async, or fire-and-forget. -/
inductive HookExecutionMode where
  | blocking
  | async
  | fireAndForget
deriving DecidableEq

/-- Modelled from the spec: `LifecycleEventType` (types.rs, not under
src/) — the triggering event type label of a hook; only equality of
labels is used by the embedded code. -/
inductive LifecycleEventType where
  | sessionStart
  | sessionEnd
  | taskStart
  | taskEnd
  | execBefore
  | execAfter
  | patchBefore
  | patchAfter
  | errorEvent
deriving DecidableEq

/-- Modelled from the spec: `HookError` (types.rs, not under src/) — the
error taxonomy: ConfigurationError (cycle, missing dependency, unknown
capability) and ExecutionError (capability failure, timeout), each
carrying a message, as constructed by the code under src/. -/
inductive HookError where
  | configuration (msg : String)
  | execution (msg : String)
deriving DecidableEq

/-- Modelled from the spec: `Display` for `HookError` (types.rs, not
under src/) — renders the carried message; used where src/ calls
`e.to_string()`. -/
def HookError.render : HookError → String
  | .configuration msg => msg
  | .execution msg => msg

/-- Modelled from the spec: `HookResult` (types.rs, not under src/) —
the capability contract value `{success, output?, error?, duration}`. -/
structure HookResult where
  success : Bool
  output : Option String
  error : Option String
  duration : Nat
deriving DecidableEq

/-- Modelled from the spec: `HookResult::success` (types.rs). -/
def HookResult.mkSuccess (output : Option String) (duration : Nat) : HookResult :=
  { success := true, output := output, error := none, duration := duration }

/-- Modelled from the spec: `HookResult::failure` (types.rs). -/
def HookResult.mkFailure (err : String) (duration : Nat) : HookResult :=
  { success := false, output := none, error := some err, duration := duration }

/-- Execution configuration (`ExecutionConfig`, executor.rs lines 20-36). -/
structure ExecutionConfig where
  timeout : Nat
  mode : HookExecutionMode
  priority : Int
  required : Bool
  max_retries : Nat
  retry_delay : Nat
  isolated : Bool
deriving DecidableEq

/-- Result of one wrapped hook execution (`ExecutionResult`,
executor.rs lines 96-112). -/
structure ExecutionResult where
  execution_id : String
  result : HookResult
  config : ExecutionConfig
  duration : Nat
  retry_attempts : Nat
  cancelled : Bool
  error_details : Option String
deriving DecidableEq

/-- Aggregated results over many executions (`AggregatedResults`,
executor.rs lines 114-131); the success rate is an exact rational. -/
structure AggregatedResults where
  results : List ExecutionResult
  successful : List ExecutionResult
  failed : List ExecutionResult
  cancelled : List ExecutionResult
  total_duration : Nat
  average_duration : Nat
  success_rate : ℚ

/-- `AggregatedResults::from_results` (executor.rs lines 135-163). -/
def AggregatedResults.fromResults (results : List ExecutionResult) : AggregatedResults :=
  let total_count := results.length
  let successful := results.filter (fun r => r.result.success && !r.cancelled)
  let failed := results.filter (fun r => !r.result.success && !r.cancelled)
  let cancelled := results.filter (fun r => r.cancelled)
  let total_duration := (results.map (fun r => r.duration)).sum
  let average_duration := if total_count > 0 then total_duration / total_count else 0
  let success_rate : ℚ :=
    if total_count > 0 then (successful.length : ℚ) / (total_count : ℚ) else 0
  { results := results, successful := successful, failed := failed,
    cancelled := cancelled, total_duration := total_duration,
    average_duration := average_duration, success_rate := success_rate }

/-- `AggregatedResults::has_critical_failures` (executor.rs lines 166-168). -/
def AggregatedResults.hasCriticalFailures (a : AggregatedResults) : Bool :=
  a.failed.any (fun r => r.config.required)

/-- Outcome of racing one `HookExecutor::execute` invocation against the
timeout clock (`execute_with_context`, executor.rs line 230): Ok
completion, Err completion, or the timeout elapsing. -/
inductive AttemptOutcome where
  | ok (res : HookResult)
  | err (e : HookError)
  | timedOut
deriving DecidableEq

/-- Whether an attempt outcome is a failure (capability error or timeout). -/
def AttemptOutcome.failed : AttemptOutcome → Bool
  | .ok _ => false
  | .err _ => true
  | .timedOut => true

/-- Oracle describing one run's environment for `execute_with_context`:
`poll i` is the value of the shared cancellation flag at its i-th read
(read 0 is the pre-loop check, read k+1 guards attempt k), and
`attempt k` is the raced outcome of the k-th capability invocation. -/
structure ExecEnv where
  poll : Nat → Bool
  attempt : Nat → AttemptOutcome

/-- The error text synthesized for a timed-out attempt
(`execute_with_context`, executor.rs line 250); the Duration debug
formatting is abstracted to the unit count followed by "s". -/
def timeoutMsg (t : Nat) : String :=
  "Execution timed out after " ++ toString t ++ "s"

/-- The recorded error of a failing attempt: the rendered capability
error, or the synthesized timeout message (executor.rs lines 243-253). -/
def attemptErrMsg (cfg : ExecutionConfig) : AttemptOutcome → Option String
  | .ok _ => none
  | .err e => some e.render
  | .timedOut => some (timeoutMsg cfg.timeout)

/-- The result returned when the context is already cancelled before the
retry loop starts (executor.rs lines 198-208). -/
def mkCancelledBefore (eid : String) (cfg : ExecutionConfig) : ExecutionResult :=
  { execution_id := eid
    result := HookResult.mkFailure "Execution cancelled before start" 0
    config := cfg
    duration := 0
    retry_attempts := 0
    cancelled := true
    error_details := some "Pre-execution cancellation" }

/-- The retry loop of `execute_with_context` (executor.rs lines 210-280),
returning the result together with the number of capability invocations
made. `k` is the running `retry_attempts` counter. The loop body runs at
most `max_retries + 1` times (it breaks once `k + 1 > max_retries`), so
with fuel `max_retries + 1` the fuel-0 branch is unreachable; it mirrors
the exhausted-retries result shape. -/
def retryLoop (cfg : ExecutionConfig) (eid : String) (env : ExecEnv) :
    Nat → Nat → Option String → ExecutionResult × Nat
  | 0, k, lastErr =>
    ({ execution_id := eid
       result := HookResult.mkFailure (lastErr.getD "Unknown error") 0
       config := cfg
       duration := 0
       retry_attempts := k - 1
       cancelled := false
       error_details := some (lastErr.getD "Unknown error") }, k)
  | fuel + 1, k, _lastErr =>
    if env.poll (k + 1) then
      ({ execution_id := eid
         result := HookResult.mkFailure "Execution cancelled" 0
         config := cfg
         duration := 0
         retry_attempts := k
         cancelled := true
         error_details := some "Mid-execution cancellation" }, k)
    else
      match env.attempt k with
      | .ok hookResult =>
        ({ execution_id := eid
           result := hookResult
           config := cfg
           duration := 0
           retry_attempts := k
           cancelled := false
           error_details := none }, k + 1)
      | outcome =>
        let newErr := (attemptErrMsg cfg outcome).getD "Unknown error"
        if k + 1 > cfg.max_retries then
          ({ execution_id := eid
             result := HookResult.mkFailure newErr 0
             config := cfg
             duration := 0
             retry_attempts := (k + 1) - 1
             cancelled := false
             error_details := some newErr }, k + 1)
        else retryLoop cfg eid env fuel (k + 1) (some newErr)

/-- `HookExecutor::execute_with_context` (executor.rs lines 190-280):
the pre-loop cancellation check followed by the retry loop; paired with
the number of capability invocations. -/
def executeWithContext (cfg : ExecutionConfig) (eid : String) (env : ExecEnv) :
    ExecutionResult × Nat :=
  if env.poll 0 then (mkCancelledBefore eid cfg, 0)
  else retryLoop cfg eid env (cfg.max_retries + 1) 0 none

/-- Modelled from the spec: `HookConfig` (config.rs, not under src/) —
"id (unique, auto-generated if absent), triggering event type,
capability-type label, concurrency mode, priority, required flag,
parallel flag, dependency id list, timeout"; field shapes follow their
construction in the src/ tests. Fields never read by the embedded code
(condition, tags, blocking, max_retries, the hook-type payload) are
omitted; the hook type enters only through its Debug rendering, kept
here as the string `hookTypeDebug`. -/
structure HookConfig where
  id : Option String
  event : LifecycleEventType
  hookTypeDebug : String
  mode : HookExecutionMode
  priority : Int
  required : Bool
  description : Option String
  depends_on : List String
  parallel : Bool
  timeout : Option Nat
deriving DecidableEq

/-- Modelled from the spec: `HookConfig::ensure_id` (config.rs, not
under src/) — assigns an auto-generated id when none is present; the
generated text is opaque to every claim, so a fixed placeholder stands
for it. -/
def HookConfig.ensureId (h : HookConfig) : HookConfig :=
  match h.id with
  | some _ => h
  | none => { h with id := some "generated-hook-id" }

/-- Modelled from the spec: `HookConfig::get_id` (config.rs, not under
src/) — returns the stored id (call sites run after `ensure_id`). -/
def HookConfig.getId (h : HookConfig) : String :=
  h.id.getD ""

/-- Modelled from the spec: `HookConfig::get_timeout` (config.rs, not
under src/) — the hook's own timeout, or the supplied global default. -/
def HookConfig.getTimeout (h : HookConfig) (dflt : Nat) : Nat :=
  h.timeout.getD dflt

/-- Substring test on character lists, the meaning of Rust
`str::contains` with a string pattern. -/
def listHasSub (needle : List Char) : List Char → Bool
  | [] => needle.isEmpty
  | c :: rest => needle.isPrefixOf (c :: rest) || listHasSub needle rest

/-- Substring test on strings (Rust `str::contains`). -/
def strContains (haystack pattern : String) : Bool :=
  listHasSub pattern.data haystack.data

/-- Result of executing a single hook (`HookExecutionResult`,
manager.rs lines 56-61). -/
structure HookExecutionResult where
  hook_description : String
  result : HookResult
  execution_time : Nat
deriving DecidableEq

/-- Results of executing a batch of hooks (`HookExecutionResults`,
manager.rs lines 48-53). -/
structure HookExecutionResults where
  successful : List HookExecutionResult
  failed : List HookExecutionResult
  total_duration : Nat
deriving DecidableEq

/-- `HookManager::get_hook_description` (manager.rs lines 320-324):
the configured description, else the Debug rendering of the hook type
followed by " hook". -/
def getHookDescription (h : HookConfig) : String :=
  h.description.getD (h.hookTypeDebug ++ " hook")

/-- The `partition3` helper (manager.rs lines 389-414): split a list
into three by a triple-valued predicate, keeping input order. -/
def partition3Aux {α : Type} (pred : α → Bool × Bool × Bool) :
    List α → List α × List α × List α
  | [] => ([], [], [])
  | x :: rest =>
    let parts := partition3Aux pred rest
    match pred x with
    | (true, _, _) => (x :: parts.1, parts.2.1, parts.2.2)
    | (false, true, _) => (parts.1, x :: parts.2.1, parts.2.2)
    | (false, false, true) => (parts.1, parts.2.1, x :: parts.2.2)
    | (false, false, false) => parts

/-- What one `execute_single_hook` call can observe: failure of the
executor lookup (`get_executor_for_hook`, manager.rs lines 306-317), or
the raced outcome of `timeout(timeout_duration,
executor.execute(context))` (manager.rs line 282). -/
inductive SingleOutcome where
  | noExecutor (e : HookError)
  | raced (o : AttemptOutcome)

/-- `HookManager::execute_single_hook` (manager.rs lines 265-303):
capability errors and timeouts are converted into failed
`HookResult`s; only executor-lookup failure surfaces as `Err`. -/
def executeSingleHook (exec : HookConfig → SingleOutcome) (globalTimeout : Nat)
    (h : HookConfig) : Except HookError HookExecutionResult :=
  match exec h with
  | .noExecutor e => .error e
  | .raced (.ok hookResult) =>
    .ok { hook_description := getHookDescription h, result := hookResult,
          execution_time := 0 }
  | .raced (.err e) =>
    .ok { hook_description := getHookDescription h,
          result := HookResult.mkFailure e.render 0, execution_time := 0 }
  | .raced .timedOut =>
    .ok { hook_description := getHookDescription h,
          result := HookResult.mkFailure
            ("Hook execution timed out after " ++
              toString (h.getTimeout globalTimeout) ++ "s") 0,
          execution_time := 0 }

/-- The blocking-hooks loop of `execute_hooks` (manager.rs lines
180-210): sequential execution accumulating successes and failures,
aborting with an error on the first failed required hook. -/
def runBlocking (exec : HookConfig → SingleOutcome) (globalTimeout : Nat) :
    List HookConfig → List HookExecutionResult → List HookExecutionResult →
    Except HookError (List HookExecutionResult × List HookExecutionResult)
  | [], succ, fail => .ok (succ, fail)
  | h :: rest, succ, fail =>
    match executeSingleHook exec globalTimeout h with
    | .ok execResult =>
      if execResult.result.success then
        runBlocking exec globalTimeout rest (succ ++ [execResult]) fail
      else
        if h.required then
          .error (.execution
            ("Required blocking hook failed: " ++ execResult.hook_description))
        else runBlocking exec globalTimeout rest succ (fail ++ [execResult])
    | .error e =>
      if h.required then .error e
      else
        runBlocking exec globalTimeout rest succ
          (fail ++ [{ hook_description := getHookDescription h,
                      result := HookResult.mkFailure e.render 0,
                      execution_time := 0 }])

/-- The async-hooks phase of `execute_hooks` (manager.rs lines
213-239): `join_all` yields results in future-creation order; `i` is
the running enumeration index used in the error description. -/
def runAsync (exec : HookConfig → SingleOutcome) (globalTimeout : Nat) :
    Nat → List HookConfig → List HookExecutionResult × List HookExecutionResult
  | _, [] => ([], [])
  | i, h :: rest =>
    let tail := runAsync exec globalTimeout (i + 1) rest
    match executeSingleHook exec globalTimeout h with
    | .ok execResult =>
      if execResult.result.success then (execResult :: tail.1, tail.2)
      else (tail.1, execResult :: tail.2)
    | .error e =>
      (tail.1,
       { hook_description := "Async hook " ++ toString i,
         result := HookResult.mkFailure e.render 0,
         execution_time := 0 } :: tail.2)

/-- `HookManager::execute_hooks` (manager.rs lines 162-262): partition
by mode, run blocking hooks sequentially (with the required-failure
abort), then async hooks; fire-and-forget hooks are spawned without
being awaited and contribute nothing to the results. -/
def executeHooks (exec : HookConfig → SingleOutcome) (globalTimeout : Nat)
    (hooks : List HookConfig) : Except HookError HookExecutionResults :=
  let parts := partition3Aux (fun h =>
    match h.mode with
    | .blocking => (true, false, false)
    | .async => (false, true, false)
    | .fireAndForget => (false, false, true)) hooks
  match runBlocking exec globalTimeout parts.1 [] [] with
  | .error e => .error e
  | .ok blockingResults =>
    let asyncResults := runAsync exec globalTimeout 0 parts.2.1
    .ok { successful := blockingResults.1 ++ asyncResults.1,
          failed := blockingResults.2 ++ asyncResults.2,
          total_duration := 0 }

/-- `HookManager::handle_execution_results` (manager.rs lines
358-379): a failed result counts as critical when its description
string contains the substring "required". -/
def handleExecutionResults (results : HookExecutionResults) : Option HookError :=
  let critical := results.failed.filter
    (fun r => strContains r.hook_description "required")
  if critical.isEmpty then none
  else
    some (.execution ("Critical hook failures detected: " ++
      String.intercalate ", " (critical.map (fun r => r.hook_description))))

/-- `HookManager::trigger_event` (manager.rs lines 90-125): disabled
or no matching hooks returns Ok; otherwise execute the hooks, then let
`handle_execution_results` decide the outcome. The registry's matching
step (registry.rs, not under src/) enters as the already-resolved list
of matching hooks. -/
def triggerEvent (enabled : Bool) (matching : List HookConfig)
    (exec : HookConfig → SingleOutcome) (globalTimeout : Nat) :
    Except HookError Unit :=
  if !enabled then .ok ()
  else if matching.isEmpty then .ok ()
  else
    match executeHooks exec globalTimeout matching with
    | .error e => .error e
    | .ok results =>
      match handleExecutionResults results with
      | some e => .error e
      | none => .ok ()

/-- First-match lookup in an association list: the meaning of
`HashMap::get` under the insertion-order list model. -/
def alookup {α : Type} : List (String × α) → String → Option α
  | [], _ => none
  | (k, v) :: rest, key => if k = key then some v else alookup rest key

/-- `HashMap::insert` under the list model: overwrite the existing
binding in place, or append a new one. -/
def alistInsert {α : Type} (l : List (String × α)) (key : String) (v : α) :
    List (String × α) :=
  if (alookup l key).isSome then
    l.map (fun p => if p.1 = key then (key, v) else p)
  else l ++ [(key, v)]

/-- `HashMap::remove` under the list model. -/
def alistErase {α : Type} (l : List (String × α)) (key : String) :
    List (String × α) :=
  l.filter (fun p => p.1 ≠ key)

/-- The `entry(k).or_insert_with(Vec::new).push(v)` idiom of
`add_hook` (dependency.rs lines 47-52) under the list model. -/
def alistPush (l : List (String × List String)) (key v : String) :
    List (String × List String) :=
  if (alookup l key).isSome then
    l.map (fun p => if p.1 = key then (p.1, p.2 ++ [v]) else p)
  else l ++ [(key, [v])]

/-- The hook dependency graph (`DependencyGraph`, dependency.rs lines
10-18): hook store, forward edges (dependencies) and reverse edges
(dependents), each as an insertion-ordered association list. -/
structure DependencyGraph where
  hooks : List (String × HookConfig)
  dependencies : List (String × List String)
  dependents : List (String × List String)
deriving DecidableEq

/-- `DependencyGraph::new` (dependency.rs lines 22-28). -/
def DependencyGraph.empty : DependencyGraph := ⟨[], [], []⟩

/-- The BFS loop of `DependencyGraph::has_path` (dependency.rs lines
184-206): pop the queue front; skip visited nodes; otherwise mark the
node visited, return true when the target is among its recorded
dependencies, else enqueue its unvisited dependencies. Terminates
because each step either shrinks the queue or marks an unvisited key
visited. -/
def bfsPath (deps : List (String × List String)) (target : String) :
    List String → List String → Bool
  | [], _ => false
  | current :: queue, visited =>
    if current ∈ visited then bfsPath deps target queue visited
    else
      match _h : alookup deps current with
      | none => bfsPath deps target queue (current :: visited)
      | some ds =>
        if target ∈ ds then true
        else
          bfsPath deps target (queue ++ ds.filter (fun d => d ∉ current :: visited))
            (current :: visited)
  termination_by queue visited =>
    (((deps.map Prod.fst).filter (fun k => k ∉ visited)).length, queue.length)
  decreasing_by
  · apply Prod.Lex.right
    exact Nat.lt_succ_self _
  · have lem : ∀ (L : List (String × List String)) (k : String),
        alookup L k = none → k ∉ L.map Prod.fst := by
      intro L
      induction L with
      | nil => intro k _ hk; simp at hk
      | cons p rest ih =>
        intro k hnone hk
        rw [alookup] at hnone
        rw [List.map_cons, List.mem_cons] at hk
        by_cases hpk : p.1 = k
        · simp [hpk] at hnone
        · rcases hk with hk | hk
          · exact hpk hk.symm
          · exact ih k (by simpa [hpk] using hnone) hk
    have hnk := lem deps current _h
    have he : ((deps.map Prod.fst).filter (fun k => k ∉ current :: visited)) =
        ((deps.map Prod.fst).filter (fun k => k ∉ visited)) := by
      apply List.filter_congr
      intro k hk
      have : k ≠ current := fun hc => hnk (hc ▸ hk)
      simp [this]
    rw [he]
    apply Prod.Lex.right
    exact Nat.lt_succ_self _
  · have lem3 : ∀ (L : List (String × List String)) (k : String) (v : List String),
        alookup L k = some v → k ∈ L.map Prod.fst := by
      intro L
      induction L with
      | nil => intro k v hk; simp [alookup] at hk
      | cons p rest ih =>
        intro k v hk
        rw [alookup] at hk
        rw [List.map_cons]
        by_cases hpk : p.1 = k
        · rw [hpk]
          exact List.mem_cons_self _ _
        · rw [if_neg hpk] at hk
          exact List.mem_cons_of_mem _ (ih k v hk)
    have lem2 : ∀ (L : List String) (x : String) (v : List String),
        x ∈ L → x ∉ v →
        ((L.filter (fun k => k ∉ x :: v)).length < (L.filter (fun k => k ∉ v)).length) := by
      intro L x v hxL hxv
      induction L with
      | nil => simp at hxL
      | cons a rest ih =>
        have hmono : (rest.filter (fun k => k ∉ x :: v)).length ≤
            (rest.filter (fun k => k ∉ v)).length := by
          rw [← List.countP_eq_length_filter, ← List.countP_eq_length_filter]
          apply List.countP_mono_left
          intro k _ hk
          simp only [decide_eq_true_eq, List.mem_cons, not_or] at hk
          simp only [decide_eq_true_eq]
          exact hk.2
        by_cases hax : a = x
        · have hpa : decide (a ∉ x :: v) = false := by simp [hax]
          have hqa : decide (a ∉ v) = true := by
            subst hax
            simpa using hxv
          rw [List.filter_cons, List.filter_cons, hpa, hqa]
          simpa using Nat.lt_succ_of_le hmono
        · have hx' : x ∈ rest := by
            rcases List.mem_cons.mp hxL with h | h
            · exact absurd h.symm hax
            · exact h
          have ihh := ih hx'
          have hsame : decide (a ∉ x :: v) = decide (a ∉ v) := by
            by_cases hav : a ∈ v
            · simp [hav]
            · simp [hav, hax, Ne.symm hax]
          rw [List.filter_cons, List.filter_cons, hsame]
          by_cases hav : decide (a ∉ v) = true
          · rw [hav]
            simpa using Nat.succ_lt_succ ihh
          · rw [Bool.not_eq_true] at hav
            rw [hav]
            simpa using ihh
    apply Prod.Lex.left
    exact lem2 _ current visited (lem3 deps current _ _h) (by assumption)

/-- `DependencyGraph::has_path` (dependency.rs lines 179-207): a node
reaches itself, else run the BFS; the `Result` wrapper of the Rust
signature never carries an error and is dropped. -/
def DependencyGraph.hasPath (g : DependencyGraph) (start target : String) : Bool :=
  if start = target then true else bfsPath g.dependencies target [start] []

/-- `DependencyGraph::would_create_cycle` (dependency.rs lines
173-176). -/
def DependencyGraph.wouldCreateCycle (g : DependencyGraph)
    (fromHook toHook : String) : Bool :=
  g.hasPath toHook fromHook

/-- The error message of `validate_no_cycles` (dependency.rs lines
163-166). -/
def circularMsg (depId hookId : String) : String :=
  "Adding dependency '" ++ depId ++ "' to hook '" ++ hookId ++
    "' would create a circular dependency"

/-- `DependencyGraph::validate_no_cycles` (dependency.rs lines
159-170): error on the first declared dependency that would close a
cycle. -/
def DependencyGraph.validateNoCycles (g : DependencyGraph) (hookId : String) :
    List String → Option HookError
  | [] => none
  | depId :: rest =>
    if g.wouldCreateCycle hookId depId then
      some (.configuration (circularMsg depId hookId))
    else g.validateNoCycles hookId rest

/-- `DependencyGraph::add_hook` (dependency.rs lines 31-55): `&mut
self` plus `Result<(), HookError>` is modelled as the pair of the
resulting graph and the optional error; validation precedes every
mutation, so the error case returns the graph unchanged. -/
def DependencyGraph.addHook (g : DependencyGraph) (hook0 : HookConfig) :
    DependencyGraph × Option HookError :=
  let hook := hook0.ensureId
  let hookId := hook.getId
  match g.validateNoCycles hookId hook.depends_on with
  | some e => (g, some e)
  | none =>
    let withHook := { g with hooks := alistInsert g.hooks hookId hook }
    let withDeps := { withHook with
      dependencies := alistInsert withHook.dependencies hookId hook.depends_on }
    (hook.depends_on.foldl (fun acc depId =>
      { acc with dependents := alistPush acc.dependents depId hookId }) withDeps,
     none)

/-- `DependencyGraph::get_dependents` (dependency.rs lines 210-215). -/
def DependencyGraph.getDependents (g : DependencyGraph) (hookId : String) :
    List String :=
  (alookup g.dependents hookId).getD []

/-- `DependencyGraph::validate_dependencies` (dependency.rs lines
241-253): the first hook (in map order) with a dependency on an
unknown id produces the configuration error. -/
def DependencyGraph.validateDependencies (g : DependencyGraph) :
    Option HookError :=
  g.dependencies.findSome? (fun p =>
    p.2.findSome? (fun depId =>
      if (alookup g.hooks depId).isSome then none
      else some (HookError.configuration
        ("Hook '" ++ p.1 ++ "' depends on non-existent hook '" ++ depId ++ "'"))))

/-- Statistics about the graph (`DependencyStats`, dependency.rs lines
311-316). -/
structure DependencyStats where
  total_hooks : Nat
  hooks_with_dependencies : Nat
  max_dependency_depth : Nat
deriving DecidableEq

/-- The sequential `deps.iter().map(...).max().unwrap_or(0)` of
`calculate_hook_depth` (dependency.rs lines 293-297), threading the
shared `&mut visited` set left to right through the per-dependency
traversal `go`. -/
def calcDepthFoldWith (go : String → List String → Nat × List String) :
    List String → List String → Nat × List String
  | [], visited => (0, visited)
  | d :: rest, visited =>
    let r := go d visited
    let rr := calcDepthFoldWith go rest r.2
    (max r.1 rr.1, rr.2)

/-- `DependencyGraph::calculate_hook_depth` (dependency.rs lines
281-301): the `&mut visited` threading is explicit (result value and
updated set); a node already visited contributes 0; a node with no
recorded dependencies returns 0 while staying marked; otherwise 1 plus
the maximum depth over its dependencies, unmarking the node at the
end. The recursion depth is bounded by the number of keys of `deps`
plus one (the visited set grows along every descending chain and
descent continues only through keys), so with fuel `deps.length + 1`
the fuel-0 branch is unreachable. -/
def calcDepthGo (deps : List (String × List String)) :
    Nat → String → List String → Nat × List String
  | 0, _, visited => (0, visited)
  | fuel + 1, hookId, visited =>
    if hookId ∈ visited then (0, visited)
    else
      let visited1 := hookId :: visited
      let ds := (alookup deps hookId).getD []
      if ds.isEmpty then (0, visited1)
      else
        let folded := calcDepthFoldWith (calcDepthGo deps fuel) ds visited1
        (folded.1 + 1, folded.2.filter (fun k => k ≠ hookId))

/-- `DependencyGraph::calculate_max_depth` (dependency.rs lines
269-278): per-node traversal, each with a fresh visited set. -/
def DependencyGraph.calculateMaxDepth (g : DependencyGraph) : Nat :=
  (g.hooks.map Prod.fst).foldl
    (fun acc hookId =>
      max acc (calcDepthGo g.dependencies (g.dependencies.length + 1) hookId []).1)
    0

/-- `DependencyGraph::get_stats` (dependency.rs lines 256-266). -/
def DependencyGraph.getStats (g : DependencyGraph) : DependencyStats :=
  { total_hooks := g.hooks.length
    hooks_with_dependencies := (g.dependencies.filter (fun p => !p.2.isEmpty)).length
    max_dependency_depth := g.calculateMaxDepth }

/-- In-set dependency count used to initialize the in-degrees
(`topological_sort`, dependency.rs lines 87-93): only dependencies
whose id belongs to the filtered hook set are counted. -/
def depsInSet (hooks : List HookConfig) (h : HookConfig) : Nat :=
  h.depends_on.countP (fun depId => hooks.any (fun h2 => h2.getId == depId))

/-- Saturating decrement of one in-degree entry
(`topological_sort`, dependency.rs lines 127-133): only an existing
entry is changed. -/
def alistDecr (l : List (String × Nat)) (key : String) : List (String × Nat) :=
  l.map (fun p => if p.1 = key then (p.1, p.2 - 1) else p)

/-- Intermediate state of one ready-set pass of `topological_sort`. -/
structure SortPassState where
  hookMap : List (String × HookConfig)
  inDeg : List (String × Nat)
  par : List HookConfig
  seqs : List HookConfig

/-- Processing of one ready set (`topological_sort` loop body,
dependency.rs lines 116-135): remove each ready hook from both maps,
partition it by its `parallel` flag (keeping ready order), and
decrement the in-degrees of its recorded dependents. -/
def processReady (g : DependencyGraph) :
    List String → List (String × HookConfig) → List (String × Nat) → SortPassState
  | [], hm, ind => ⟨hm, ind, [], []⟩
  | hid :: rest, hm, ind =>
    match alookup hm hid with
    | none => processReady g rest hm ind
    | some h =>
      let hm1 := alistErase hm hid
      let ind1 := alistErase ind hid
      let ind2 := (g.getDependents hid).foldl (fun m depId => alistDecr m depId) ind1
      let st := processReady g rest hm1 ind2
      if h.parallel then { st with par := h :: st.par }
      else { st with seqs := h :: st.seqs }

/-- Insert a hook after every element of an already sorted list whose
priority is at most its own. -/
def insertByPriority (h : HookConfig) : List HookConfig → List HookConfig
  | [] => [h]
  | y :: rest =>
    if y.priority ≤ h.priority then y :: insertByPriority h rest
    else h :: y :: rest

/-- Stable sort by ascending priority (`sort_by_key`, dependency.rs
lines 138 and 146). Rust's `sort_by_key` is a stable sort, and a
stable sort's output is uniquely determined by the key order and the
input order; it is realized here as stable insertion sort so that
concrete plans compute by kernel reduction. -/
def sortByPriority (hooks : List HookConfig) : List HookConfig :=
  hooks.foldl (fun acc h => insertByPriority h acc) []

/-- The level-emitting loop of `topological_sort` (dependency.rs lines
97-153): while hooks remain, collect the zero-in-degree ids (map
order), fail when there are none, otherwise emit the parallel ready
hooks as one level followed by each sequential ready hook as its own
level, both in ascending priority. Each pass with a nonempty ready set
removes at least one entry whenever the two maps hold the same keys
(always the case when entered from `topological_sort`), so fuel
`hookMap.length + 1` suffices; the fuel-0 branch mirrors the
circular-dependency exit. -/
def sortLoop (g : DependencyGraph) :
    Nat → List (String × HookConfig) → List (String × Nat) →
    Except HookError (List (List HookConfig))
  | 0, hookMap, _ =>
    if hookMap.isEmpty then .ok []
    else .error (.configuration "Circular dependency detected in hooks")
  | fuel + 1, hookMap, inDeg =>
    if hookMap.isEmpty then .ok []
    else
      let ready := (inDeg.filter (fun p => decide (p.2 = 0))).map Prod.fst
      if ready.isEmpty then
        .error (.configuration "Circular dependency detected in hooks")
      else
        let st := processReady g ready hookMap inDeg
        let par := sortByPriority st.par
        let seqs := sortByPriority st.seqs
        let levels := (if par.isEmpty then [] else [par]) ++ seqs.map (fun h => [h])
        match sortLoop g fuel st.hookMap st.inDeg with
        | .ok rest => .ok (levels ++ rest)
        | .error e => .error e

/-- `DependencyGraph::topological_sort` (dependency.rs lines 77-156):
build the hook map and in-degree map over the filtered set, then run
the level loop. -/
def DependencyGraph.topologicalSort (g : DependencyGraph)
    (hooks : List HookConfig) : Except HookError (List (List HookConfig)) :=
  let hookMap := hooks.foldl (fun m h => alistInsert m h.getId h) []
  let inDeg := hooks.foldl (fun m h => alistInsert m h.getId (depsInSet hooks h)) []
  sortLoop g (hookMap.length + 1) hookMap inDeg

/-- The event filter of `get_ordered_hooks` (dependency.rs lines
60-64): stored hooks whose trigger matches, in map order. -/
def eventHooks (g : DependencyGraph) (eventType : LifecycleEventType) :
    List HookConfig :=
  (g.hooks.map Prod.snd).filter (fun h => decide (h.event = eventType))

/-- `DependencyGraph::get_ordered_hooks` (dependency.rs lines 58-74):
filter the stored hooks by event type; an empty filter yields the
empty plan. -/
def DependencyGraph.getOrderedHooks (g : DependencyGraph)
    (eventType : LifecycleEventType) : Except HookError (List (List HookConfig)) :=
  if (eventHooks g eventType).isEmpty then .ok []
  else g.topologicalSort (eventHooks g eventType)

/-- Well-formedness of a graph state as `add_hook` maintains it for
distinct ids: hook-map keys are unique, each stored hook carries its
key as its id, and the reverse-edge map records each dependent id with
exactly the multiplicity of the corresponding forward declaration. -/
def GraphWf (g : DependencyGraph) : Prop :=
  (g.hooks.map Prod.fst).Nodup ∧
  (∀ p ∈ g.hooks, p.2.getId = p.1) ∧
  (∀ p ∈ g.hooks, ∀ q ∈ g.hooks,
    (g.getDependents q.1).count p.1 = p.2.depends_on.count q.1)

/-- The in-set dependency relation on ids for a filtered hook set `S`:
`a` is a declared dependency of the member with id `b`, and `a` itself
is the id of a member. -/
def InSetEdge (S : List HookConfig) (a b : String) : Prop :=
  (∃ h ∈ S, h.getId = b ∧ a ∈ h.depends_on) ∧ (∃ h ∈ S, h.getId = a)

/-- The loop invariant of `topological_sort`: the two working maps
hold the same unique keys; every hook entry is a set member keyed by
its id; and every in-degree entry counts exactly its hook's
declared dependencies whose id is still a key of the hook map. -/
def LoopInv (S : List HookConfig) (hm : List (String × HookConfig))
    (ind : List (String × Nat)) : Prop :=
  ind.map Prod.fst = hm.map Prod.fst ∧
  (hm.map Prod.fst).Nodup ∧
  (∀ p ∈ hm, p.2 ∈ S ∧ p.2.getId = p.1) ∧
  (∀ p ∈ ind, ∃ h, (p.1, h) ∈ hm ∧
    p.2 = h.depends_on.countP (fun d => decide (d ∈ hm.map Prod.fst)))

/-- One forward dependency edge: `b` is among the recorded
dependencies of `a`. -/
def DepEdge (deps : List (String × List String)) (a b : String) : Prop :=
  b ∈ (alookup deps a).getD []

/-- Forward-edge reachability over the recorded dependencies: the
reflexive-transitive closure of `DepEdge`. -/
def Reaches (deps : List (String × List String)) : String → String → Prop :=
  Relation.ReflTransGen (DepEdge deps)

/-- A plain test hook for concrete graph scenarios. -/
def mkTestHook (ident : String) (deps : List String) (prio : Int) (par : Bool) :
    HookConfig :=
  { id := some ident, event := .sessionStart, hookTypeDebug := "Script",
    mode := .async, priority := prio, required := false,
    description := none, depends_on := deps, parallel := par, timeout := none }

/-- Graph holding hook X with deps=[Y] (Y not yet present), the seed of
the two-hook cycle scenario: the state produced by
`DependencyGraph::add_hook` of X on the empty graph (proved as
`cycleSeedGraph_eq_addHook` below), written out literally so that
concrete goals about it compute. -/
def cycleSeedGraph : DependencyGraph :=
  { hooks := [("X", mkTestHook "X" ["Y"] 0 true)],
    dependencies := [("X", ["Y"])],
    dependents := [("Y", ["X"])] }

/-- Hook Y with deps=[X], whose insertion into `cycleSeedGraph` must
fail. -/
def hookYdX : HookConfig := mkTestHook "Y" ["X"] 0 true

/-- A hook that lists its own id among its dependencies. -/
def selfDepHook : HookConfig := mkTestHook "a" ["a"] 0 true

/-- A graph state holding a residual two-cycle in its forward edges
(not constructible through `add_hook`; exactly the defensive situation
`calculate_hook_depth` guards against). -/
def cyclicGraph : DependencyGraph :=
  { hooks := [("x", mkTestHook "x" ["y"] 0 true), ("y", mkTestHook "y" ["x"] 0 true)],
    dependencies := [("x", ["y"]), ("y", ["x"])],
    dependents := [("x", ["y"]), ("y", ["x"])] }

/-- The A/B/C scenario with parallel dependents: A no deps, B and C
depend on A, all parallel, priorities ascending in insertion order.
This is the state produced by `add_hook` of A, B, C in order on the
empty graph (proved as `parGraph_eq_addHook` below), written out
literally so that concrete goals about it compute. -/
def parGraph : DependencyGraph :=
  { hooks := [("A", mkTestHook "A" [] 0 true), ("B", mkTestHook "B" ["A"] 1 true),
              ("C", mkTestHook "C" ["A"] 2 true)],
    dependencies := [("A", []), ("B", ["A"]), ("C", ["A"])],
    dependents := [("A", ["B", "C"])] }

/-- The A/B/C scenario with `parallel = false` on all three hooks: the
state produced by `add_hook` of A, B, C in order on the empty graph
(proved as `seqGraph_eq_addHook` below). -/
def seqGraph : DependencyGraph :=
  { hooks := [("A", mkTestHook "A" [] 0 false), ("B", mkTestHook "B" ["A"] 1 false),
              ("C", mkTestHook "C" ["A"] 2 false)],
    dependencies := [("A", []), ("B", ["A"]), ("C", ["A"])],
    dependents := [("A", ["B", "C"])] }

/-- Ids of a plan's levels, for stating concrete plan shapes. -/
def planIds (r : Except HookError (List (List HookConfig))) :
    Except HookError (List (List String)) :=
  match r with
  | .ok plan => .ok (plan.map (fun lv => lv.map (fun h => h.getId)))
  | .error e => .error e

/-- A required async hook whose description does not contain the word
"required". -/
def requiredQuietHook : HookConfig :=
  { id := some "h1", event := .sessionStart, hookTypeDebug := "Script",
    mode := .async, priority := 0, required := true,
    description := some "notify teammates", depends_on := [],
    parallel := true, timeout := none }

/-- A non-required async hook whose description does contain the word
"required". -/
def optionalLabeledHook : HookConfig :=
  { id := some "h2", event := .sessionStart, hookTypeDebug := "Script",
    mode := .async, priority := 0, required := false,
    description := some "optional but required-sounding", depends_on := [],
    parallel := true, timeout := none }

/-- An execution oracle under which every capability fails. -/
def alwaysFailingExec : HookConfig → SingleOutcome :=
  fun _ => .raced (.err (.execution "capability failed"))

/-- A sample execution configuration (the `Default` values of
executor.rs lines 38-50) used by concrete witnesses. -/
def demoCfg : ExecutionConfig :=
  { timeout := 30, mode := .async, priority := 0, required := false,
    max_retries := 0, retry_delay := 500, isolated := true }

/-- A successful sample execution result. -/
def demoOk : ExecutionResult :=
  { execution_id := "1", result := HookResult.mkSuccess (some "ok") 100,
    config := demoCfg, duration := 100, retry_attempts := 0,
    cancelled := false, error_details := none }

/-- A failed sample execution result. -/
def demoFail : ExecutionResult :=
  { execution_id := "2", result := HookResult.mkFailure "failed" 50,
    config := demoCfg, duration := 50, retry_attempts := 1,
    cancelled := false, error_details := some "error" }

/-- An environment whose cancellation flag is set from the start. -/
def demoCancelledEnv : ExecEnv :=
  { poll := fun _ => true, attempt := fun _ => .ok (HookResult.mkSuccess none 0) }

/-- An environment that is never cancelled and whose capability always
fails. -/
def demoFailingEnv : ExecEnv :=
  { poll := fun _ => false, attempt := fun _ => .err (.execution "boom") }

end Hooks

namespace Hooks

/-! Theorems about the retry/timeout/cancellation wrapper and the
result aggregation of executor.rs. -/

/-- C6: `has_critical_failures()` on an `AggregatedResults` built by
`from_results` returns true iff at least one input result has
`result.success = false`, `cancelled = false`, and
`config.required = true`. -/
theorem has_critical_failures_iff_required_failure (rs : List ExecutionResult) :
    (AggregatedResults.fromResults rs).hasCriticalFailures = true ↔
      ∃ r ∈ rs, r.result.success = false ∧ r.cancelled = false ∧
        r.config.required = true := by
  simp only [AggregatedResults.fromResults, AggregatedResults.hasCriticalFailures,
    List.any_eq_true, List.mem_filter, Bool.and_eq_true, Bool.not_eq_true']
  tauto

/-- C8: `from_results` sets `success_rate` to k/n where k counts the
successful (success and not cancelled) results of the n inputs, and to
0 when n = 0. -/
theorem success_rate_eq_ratio (rs : List ExecutionResult) :
    (0 < rs.length →
      (AggregatedResults.fromResults rs).success_rate =
        ((rs.filter (fun r => r.result.success && !r.cancelled)).length : ℚ) /
          (rs.length : ℚ)) ∧
    (rs.length = 0 → (AggregatedResults.fromResults rs).success_rate = 0) := by
  constructor
  · intro h
    simp [AggregatedResults.fromResults, h]
  · intro h
    simp [AggregatedResults.fromResults, h]

/-- Witness for C8 at a concrete two-element input (one success of
two results) and at the empty input. -/
theorem success_rate_eq_ratio_witness :
    ((AggregatedResults.fromResults [demoOk, demoFail]).success_rate =
        (([demoOk, demoFail].filter (fun r => r.result.success && !r.cancelled)).length : ℚ) /
          (([demoOk, demoFail] : List ExecutionResult).length : ℚ)) ∧
      (AggregatedResults.fromResults []).success_rate = 0 :=
  ⟨(success_rate_eq_ratio [demoOk, demoFail]).1 (by decide),
   (success_rate_eq_ratio []).2 rfl⟩

/-- C7: when the cancellation flag is already set at the pre-loop
check, `execute_with_context` returns a cancelled, unsuccessful result
with `retry_attempts = 0`, and the capability is invoked zero times. -/
theorem cancelled_before_start_skips_execution (cfg : ExecutionConfig)
    (eid : String) (env : ExecEnv) (h : env.poll 0 = true) :
    (executeWithContext cfg eid env).1.cancelled = true ∧
    (executeWithContext cfg eid env).1.result.success = false ∧
    (executeWithContext cfg eid env).1.retry_attempts = 0 ∧
    (executeWithContext cfg eid env).2 = 0 := by
  simp [executeWithContext, h, mkCancelledBefore, HookResult.mkFailure]

/-- Witness for C7 at a concrete pre-cancelled environment. -/
theorem cancelled_before_start_skips_execution_witness :
    (executeWithContext demoCfg "e" demoCancelledEnv).1.cancelled = true ∧
    (executeWithContext demoCfg "e" demoCancelledEnv).1.result.success = false ∧
    (executeWithContext demoCfg "e" demoCancelledEnv).1.retry_attempts = 0 ∧
    (executeWithContext demoCfg "e" demoCancelledEnv).2 = 0 :=
  cancelled_before_start_skips_execution demoCfg "e" demoCancelledEnv rfl

/-- Helper: when no poll cancels and every attempt fails, the retry
loop runs its remaining budget down and returns the exhausted-retries
failure carrying the last attempt's error. -/
theorem retryLoop_all_fail (cfg : ExecutionConfig) (eid : String) (env : ExecEnv)
    (hpoll : ∀ i, env.poll i = false)
    (hfail : ∀ k, (env.attempt k).failed = true) :
    ∀ fuel k, k + fuel = cfg.max_retries + 1 → 0 < fuel → ∀ lastErr,
      retryLoop cfg eid env fuel k lastErr =
        ({ execution_id := eid
           result := HookResult.mkFailure
             ((attemptErrMsg cfg (env.attempt cfg.max_retries)).getD "Unknown error") 0
           config := cfg
           duration := 0
           retry_attempts := cfg.max_retries
           cancelled := false
           error_details :=
             some ((attemptErrMsg cfg (env.attempt cfg.max_retries)).getD "Unknown error") },
         cfg.max_retries + 1) := by
  intro fuel
  induction fuel with
  | zero => intro k hk h0; omega
  | succ f ih =>
    intro k hk _ lastErr
    have hkle : k ≤ cfg.max_retries := by omega
    rw [retryLoop]
    rw [hpoll (k + 1)]
    simp only [Bool.false_eq_true, if_false]
    cases houtcome : env.attempt k with
    | ok r =>
      have := hfail k
      rw [houtcome] at this
      simp [AttemptOutcome.failed] at this
    | err e =>
      by_cases hlast : k + 1 > cfg.max_retries
      · have hkeq : k = cfg.max_retries := by omega
        subst hkeq
        rw [houtcome]
        simp
      · have hf : 0 < f := by omega
        have := ih (k + 1) (by omega) hf (some ((attemptErrMsg cfg (.err e)).getD "Unknown error"))
        simp only [gt_iff_lt, not_lt] at hlast
        simp [hlast, this, Nat.not_lt.mpr hlast]
    | timedOut =>
      by_cases hlast : k + 1 > cfg.max_retries
      · have hkeq : k = cfg.max_retries := by omega
        subst hkeq
        rw [houtcome]
        simp
      · have hf : 0 < f := by omega
        have := ih (k + 1) (by omega) hf (some ((attemptErrMsg cfg .timedOut).getD "Unknown error"))
        simp only [gt_iff_lt, not_lt] at hlast
        simp [hlast, this, Nat.not_lt.mpr hlast]

/-- C4: in a never-cancelled context whose capability fails on every
attempt, `execute_with_context` invokes the capability exactly
`max_retries + 1` times and returns an unsuccessful, uncancelled result
with `retry_attempts = max_retries` carrying the last attempt's
error. -/
theorem execute_with_context_exhausts_retries (cfg : ExecutionConfig)
    (eid : String) (env : ExecEnv)
    (hpoll : ∀ i, env.poll i = false)
    (hfail : ∀ k, (env.attempt k).failed = true) :
    (executeWithContext cfg eid env).2 = cfg.max_retries + 1 ∧
    (executeWithContext cfg eid env).1.result.success = false ∧
    (executeWithContext cfg eid env).1.cancelled = false ∧
    (executeWithContext cfg eid env).1.retry_attempts = cfg.max_retries ∧
    (executeWithContext cfg eid env).1.error_details =
      attemptErrMsg cfg (env.attempt cfg.max_retries) := by
  have h := retryLoop_all_fail cfg eid env hpoll hfail (cfg.max_retries + 1) 0
    (by omega) (by omega) none
  have hlastfail := hfail cfg.max_retries
  cases hf : env.attempt cfg.max_retries with
  | ok r =>
    rw [hf] at hlastfail
    simp [AttemptOutcome.failed] at hlastfail
  | err e =>
    rw [hf] at h
    simp [executeWithContext, hpoll 0, h, HookResult.mkFailure, attemptErrMsg]
  | timedOut =>
    rw [hf] at h
    simp [executeWithContext, hpoll 0, h, HookResult.mkFailure, attemptErrMsg]

/-- Witness for C4 at a concrete always-failing environment with
`max_retries = 2`. -/
theorem execute_with_context_exhausts_retries_witness :
    (executeWithContext { demoCfg with max_retries := 2 } "e" demoFailingEnv).2 =
        { demoCfg with max_retries := 2 }.max_retries + 1 ∧
    (executeWithContext { demoCfg with max_retries := 2 } "e" demoFailingEnv).1.result.success = false ∧
    (executeWithContext { demoCfg with max_retries := 2 } "e" demoFailingEnv).1.cancelled = false ∧
    (executeWithContext { demoCfg with max_retries := 2 } "e" demoFailingEnv).1.retry_attempts =
        { demoCfg with max_retries := 2 }.max_retries ∧
    (executeWithContext { demoCfg with max_retries := 2 } "e" demoFailingEnv).1.error_details =
      attemptErrMsg { demoCfg with max_retries := 2 }
        (demoFailingEnv.attempt { demoCfg with max_retries := 2 }.max_retries) :=
  execute_with_context_exhausts_retries { demoCfg with max_retries := 2 } "e"
    demoFailingEnv (fun _ => rfl) (fun _ => rfl)

/-- Sanity link: `cycleSeedGraph` is exactly the state `add_hook`
produces for hook X (deps=[Y]) on the empty graph. -/
theorem cycleSeedGraph_eq_addHook :
    DependencyGraph.empty.addHook (mkTestHook "X" ["Y"] 0 true) =
      (cycleSeedGraph, none) := by
  simp [DependencyGraph.addHook, DependencyGraph.validateNoCycles,
    DependencyGraph.wouldCreateCycle, DependencyGraph.hasPath, bfsPath,
    DependencyGraph.empty, alookup, alistInsert, alistPush, mkTestHook,
    HookConfig.ensureId, HookConfig.getId, cycleSeedGraph]

/-- Sanity link: `parGraph` is exactly the state `add_hook` produces
for hooks A, B, C (in that order) on the empty graph. -/
theorem parGraph_eq_addHook :
    ((DependencyGraph.empty.addHook (mkTestHook "A" [] 0 true)).1.addHook
        (mkTestHook "B" ["A"] 1 true)).1.addHook (mkTestHook "C" ["A"] 2 true) =
      (parGraph, none) := by
  simp [DependencyGraph.addHook, DependencyGraph.validateNoCycles,
    DependencyGraph.wouldCreateCycle, DependencyGraph.hasPath, bfsPath,
    DependencyGraph.empty, alookup, alistInsert, alistPush, mkTestHook,
    HookConfig.ensureId, HookConfig.getId, parGraph]

/-- Sanity link: `seqGraph` is exactly the state `add_hook` produces
for the sequential variants of A, B, C on the empty graph. -/
theorem seqGraph_eq_addHook :
    ((DependencyGraph.empty.addHook (mkTestHook "A" [] 0 false)).1.addHook
        (mkTestHook "B" ["A"] 1 false)).1.addHook (mkTestHook "C" ["A"] 2 false) =
      (seqGraph, none) := by
  simp [DependencyGraph.addHook, DependencyGraph.validateNoCycles,
    DependencyGraph.wouldCreateCycle, DependencyGraph.hasPath, bfsPath,
    DependencyGraph.empty, alookup, alistInsert, alistPush, mkTestHook,
    HookConfig.ensureId, HookConfig.getId, seqGraph]

/-- C5: for hooks A (no deps), B and C (both depending on A), the plan
is [[A],[B,C]] when B and C are parallel, and [[A],[B],[C]] in
ascending priority order when all three are sequential. -/
theorem plan_parallel_and_sequential_shapes :
    planIds (parGraph.getOrderedHooks .sessionStart) = .ok [["A"], ["B", "C"]] ∧
    planIds (seqGraph.getOrderedHooks .sessionStart) = .ok [["A"], ["B"], ["C"]] :=
  ⟨rfl, rfl⟩

/-- C9: the depth traversal's per-call visited set makes a
re-encountered node contribute depth 0 (the cycle guard,
dependency.rs lines 282-284), and `get_stats` on a graph whose forward
edges hold a residual two-cycle still returns (it reports depth 2 for
the two-cycle rather than erroring). -/
theorem hook_depth_cycle_guard (deps : List (String × List String)) (fuel : Nat)
    (hookId : String) (visited : List String) (hmem : hookId ∈ visited) :
    calcDepthGo deps fuel hookId visited = (0, visited) ∧
    cyclicGraph.getStats = ⟨2, 2, 2⟩ := by
  constructor
  · cases fuel with
    | zero => rfl
    | succ f => simp [calcDepthGo, hmem]
  · rfl

/-- Witness for C9 at a concrete re-encounter inside the cyclic
graph's traversal. -/
theorem hook_depth_cycle_guard_witness :
    calcDepthGo cyclicGraph.dependencies 3 "x" ["x"] = (0, ["x"]) ∧
    cyclicGraph.getStats = ⟨2, 2, 2⟩ :=
  hook_depth_cycle_guard cyclicGraph.dependencies 3 "x" ["x"] (by decide)

/-- Helper: if some declared dependency closes a cycle,
`validate_no_cycles` reports the circular-dependency configuration
error (for the first such dependency). -/
theorem validateNoCycles_some_of_exists (g : DependencyGraph) (hookId : String) :
    ∀ deps : List String, (∃ d ∈ deps, g.wouldCreateCycle hookId d = true) →
    ∃ d0 ∈ deps, g.validateNoCycles hookId deps =
      some (.configuration (circularMsg d0 hookId)) := by
  intro deps
  induction deps with
  | nil =>
    rintro ⟨d, hd, _⟩
    simp at hd
  | cons a rest ih =>
    rintro ⟨d, hd, hcyc⟩
    by_cases ha : g.wouldCreateCycle hookId a = true
    · refine ⟨a, List.mem_cons_self _ _, ?_⟩
      rw [DependencyGraph.validateNoCycles, if_pos ha]
    · have hd' : d ∈ rest := by
        rcases List.mem_cons.mp hd with h | h
        · subst h
          exact absurd hcyc ha
        · exact h
      obtain ⟨d0, hd0, heq⟩ := ih ⟨d, hd', hcyc⟩
      refine ⟨d0, List.mem_cons_of_mem _ hd0, ?_⟩
      rw [DependencyGraph.validateNoCycles, if_neg ha]
      exact heq

/-- Helper: a validation error makes `add_hook` return it with the
graph unchanged (validation precedes every mutation). -/
theorem addHook_of_validate_some (g : DependencyGraph) (h : HookConfig)
    (e : HookError)
    (hv : g.validateNoCycles h.ensureId.getId h.ensureId.depends_on = some e) :
    g.addHook h = (g, some e) := by
  simp [DependencyGraph.addHook, hv]

/-- Helper: a substring of the right part is a substring of the
whole. -/
theorem listHasSub_append_right (needle l2 : List Char)
    (h : listHasSub needle l2 = true) :
    ∀ l1 : List Char, listHasSub needle (l1 ++ l2) = true := by
  intro l1
  induction l1 with
  | nil => simpa using h
  | cons c rest ih =>
    rw [List.cons_append, listHasSub]
    simp [ih]

/-- Helper: every `validate_no_cycles` error message mentions a
circular dependency. -/
theorem strContains_circularMsg (d h : String) :
    strContains (circularMsg d h) "circular dependency" = true := by
  have hbase : listHasSub "circular dependency".data
      "' would create a circular dependency".data = true := by decide
  rw [strContains, circularMsg]
  rw [show ("Adding dependency '" ++ d ++ "' to hook '" ++ h ++
      "' would create a circular dependency").data =
      ("Adding dependency '" ++ d ++ "' to hook '" ++ h).data ++
      "' would create a circular dependency".data from rfl]
  exact listHasSub_append_right _ _ hbase _

/-- Helper: when the BFS of `has_path` returns false, its final
visited set is closed under the forward edges and excludes the
target. -/
theorem bfsPath_false_closed (deps : List (String × List String)) (target : String) :
    ∀ queue visited, bfsPath deps target queue visited = false →
    target ∉ visited → target ∉ queue →
    (∀ v ∈ visited, target ∉ (alookup deps v).getD [] ∧
      ∀ d ∈ (alookup deps v).getD [], d ∈ visited ∨ d ∈ queue) →
    ∃ V : List String, (∀ x ∈ visited, x ∈ V) ∧ (∀ x ∈ queue, x ∈ V) ∧
      target ∉ V ∧ ∀ v ∈ V, target ∉ (alookup deps v).getD [] ∧
        ∀ d ∈ (alookup deps v).getD [], d ∈ V := by
  intro queue visited
  induction queue, visited using bfsPath.induct deps target with
  | case1 visited =>
    intro _ hnv _ hinv
    refine ⟨visited, fun a ha => ha, by simp, hnv, fun v hv => ⟨(hinv v hv).1, ?_⟩⟩
    intro d hd
    rcases (hinv v hv).2 d hd with h | h
    · exact h
    · simp at h
  | case2 current queue visited hcur ih =>
    intro hfalse hnv hnq hinv
    rw [bfsPath, if_pos hcur] at hfalse
    have hnq' : target ∉ queue := fun hh => hnq (List.mem_cons_of_mem _ hh)
    have hinv' : ∀ v ∈ visited, target ∉ (alookup deps v).getD [] ∧
        ∀ d ∈ (alookup deps v).getD [], d ∈ visited ∨ d ∈ queue := by
      intro v hv
      refine ⟨(hinv v hv).1, fun d hd => ?_⟩
      rcases (hinv v hv).2 d hd with h | h
      · exact Or.inl h
      · rcases List.mem_cons.mp h with h | h
        · exact Or.inl (h ▸ hcur)
        · exact Or.inr h
    obtain ⟨V, hvV, hqV, htV, hcl⟩ := ih hfalse hnv hnq' hinv'
    refine ⟨V, hvV, ?_, htV, hcl⟩
    intro x hx
    rcases List.mem_cons.mp hx with h | h
    · exact h ▸ hvV current hcur
    · exact hqV x h
  | case3 current queue visited hcur hnone ih =>
    intro hfalse hnv hnq hinv
    rw [bfsPath, if_neg hcur, hnone] at hfalse
    have htc : target ≠ current := fun hh => hnq (hh ▸ List.mem_cons_self _ _)
    have hnq' : target ∉ queue := fun hh => hnq (List.mem_cons_of_mem _ hh)
    have hnv' : target ∉ current :: visited := by
      intro hh
      rcases List.mem_cons.mp hh with h | h
      · exact htc h
      · exact hnv h
    have hinv' : ∀ v ∈ current :: visited, target ∉ (alookup deps v).getD [] ∧
        ∀ d ∈ (alookup deps v).getD [], d ∈ current :: visited ∨ d ∈ queue := by
      intro v hv
      rcases List.mem_cons.mp hv with hveq | hvm
      · subst hveq
        rw [hnone]
        exact ⟨by simp, by simp⟩
      · refine ⟨(hinv v hvm).1, fun d hd => ?_⟩
        rcases (hinv v hvm).2 d hd with h | h
        · exact Or.inl (List.mem_cons_of_mem _ h)
        · rcases List.mem_cons.mp h with h | h
          · exact Or.inl (h ▸ List.mem_cons_self _ _)
          · exact Or.inr h
    obtain ⟨V, hvV, hqV, htV, hcl⟩ := ih hfalse hnv' hnq' hinv'
    refine ⟨V, fun x hx => hvV x (List.mem_cons_of_mem _ hx), ?_, htV, hcl⟩
    intro x hx
    rcases List.mem_cons.mp hx with h | h
    · exact h ▸ hvV current (List.mem_cons_self _ _)
    · exact hqV x h
  | case4 current queue visited hcur ds hsome hts =>
    intro hfalse _ _ _
    rw [bfsPath, if_neg hcur, hsome] at hfalse
    simp only [] at hfalse
    rw [if_pos hts] at hfalse
    exact absurd hfalse (by simp)
  | case5 current queue visited hcur ds hsome hts ih =>
    intro hfalse hnv hnq hinv
    rw [bfsPath, if_neg hcur, hsome] at hfalse
    simp only [] at hfalse
    rw [if_neg hts] at hfalse
    have htc : target ≠ current := fun hh => hnq (hh ▸ List.mem_cons_self _ _)
    have hnq0 : target ∉ queue := fun hh => hnq (List.mem_cons_of_mem _ hh)
    have hnq' : target ∉ queue ++ ds.filter (fun d => d ∉ current :: visited) := by
      intro hh
      rcases List.mem_append.mp hh with h | h
      · exact hnq0 h
      · exact hts (List.mem_of_mem_filter h)
    have hnv' : target ∉ current :: visited := by
      intro hh
      rcases List.mem_cons.mp hh with h | h
      · exact htc h
      · exact hnv h
    have hinv' : ∀ v ∈ current :: visited, target ∉ (alookup deps v).getD [] ∧
        ∀ d ∈ (alookup deps v).getD [],
          d ∈ current :: visited ∨
            d ∈ queue ++ ds.filter (fun d => d ∉ current :: visited) := by
      intro v hv
      rcases List.mem_cons.mp hv with hveq | hvm
      · rw [hveq, hsome]
        refine ⟨by simpa using hts, ?_⟩
        intro d hd
        by_cases hdv : d ∈ current :: visited
        · exact Or.inl hdv
        · refine Or.inr (List.mem_append.mpr (Or.inr ?_))
          exact List.mem_filter.mpr ⟨hd, by simpa using hdv⟩
      · refine ⟨(hinv v hvm).1, fun d hd => ?_⟩
        rcases (hinv v hvm).2 d hd with h | h
        · exact Or.inl (List.mem_cons_of_mem _ h)
        · rcases List.mem_cons.mp h with h | h
          · exact Or.inl (h ▸ List.mem_cons_self _ _)
          · exact Or.inr (List.mem_append.mpr (Or.inl h))
    obtain ⟨V, hvV, hqV, htV, hcl⟩ := ih hfalse hnv' hnq' hinv'
    refine ⟨V, fun x hx => hvV x (List.mem_cons_of_mem _ hx), ?_, htV, hcl⟩
    intro x hx
    rcases List.mem_cons.mp hx with h | h
    · exact h ▸ hvV current (List.mem_cons_self _ _)
    · exact hqV x (List.mem_append.mpr (Or.inl h))

/-- Helper: `has_path` finds every genuine forward-edge path
(completeness of the BFS). -/
theorem hasPath_of_reaches (g : DependencyGraph) (s t : String)
    (h : Reaches g.dependencies s t) : g.hasPath s t = true := by
  by_cases hst : s = t
  · simp [DependencyGraph.hasPath, hst]
  · rw [DependencyGraph.hasPath, if_neg hst]
    by_contra hb
    rw [Bool.not_eq_true] at hb
    obtain ⟨V, hvV, hqV, htV, hcl⟩ := bfsPath_false_closed g.dependencies t [s] []
      hb (by simp) (by intro hh; exact hst (List.mem_singleton.mp hh).symm)
      (by intro v hv; simp at hv)
    have hsV : s ∈ V := hqV s (List.mem_cons_self _ _)
    have hreach_in : ∀ x y, Relation.ReflTransGen (DepEdge g.dependencies) x y →
        x ∈ V → y ∈ V := by
      intro x y hxy
      induction hxy with
      | refl => exact id
      | tail _hxb hbc ih => exact fun hx => (hcl _ (ih hx)).2 _ hbc
    exact htV (hreach_in s t h hsV)

/-- C2: if some declared dependency of a hook already has a
forward-edge path back to the hook's id, `add_hook` returns a
configuration error mentioning a circular dependency and leaves the
graph exactly unchanged. -/
theorem add_hook_rejects_cycle (g : DependencyGraph) (h : HookConfig) (d : String)
    (hd : d ∈ h.ensureId.depends_on)
    (hreach : Reaches g.dependencies d h.ensureId.getId) :
    ∃ msg, g.addHook h = (g, some (HookError.configuration msg)) ∧
      strContains msg "circular dependency" = true := by
  have hcyc : g.wouldCreateCycle h.ensureId.getId d = true :=
    hasPath_of_reaches g d _ hreach
  obtain ⟨d0, _, heq⟩ := validateNoCycles_some_of_exists g h.ensureId.getId
    h.ensureId.depends_on ⟨d, hd, hcyc⟩
  exact ⟨circularMsg d0 h.ensureId.getId, addHook_of_validate_some g h _ heq,
    strContains_circularMsg _ _⟩

/-- Witness for C2: with X (deps=[Y]) already stored, inserting Y
(deps=[X]) fails with a circular-dependency error and the graph keeps
only X. -/
theorem add_hook_rejects_cycle_witness :
    ∃ msg, cycleSeedGraph.addHook hookYdX =
        (cycleSeedGraph, some (HookError.configuration msg)) ∧
      strContains msg "circular dependency" = true :=
  add_hook_rejects_cycle cycleSeedGraph hookYdX "X" (by decide)
    (Relation.ReflTransGen.single
      (show ("Y" ∈ (alookup cycleSeedGraph.dependencies "X").getD []) from by decide))

/-- C10: a hook that lists its own id among its dependencies is
rejected by `add_hook` with a circular-dependency configuration error
(because `has_path(x, x)` is true for every x) and the graph is left
unchanged. -/
theorem self_dependency_rejected (g : DependencyGraph) (h : HookConfig)
    (hself : h.ensureId.getId ∈ h.ensureId.depends_on) :
    ∃ msg, g.addHook h = (g, some (HookError.configuration msg)) ∧
      strContains msg "circular dependency" = true := by
  have hcyc : g.wouldCreateCycle h.ensureId.getId h.ensureId.getId = true := by
    show g.hasPath _ _ = true
    simp [DependencyGraph.hasPath]
  obtain ⟨d0, _, heq⟩ := validateNoCycles_some_of_exists g h.ensureId.getId
    h.ensureId.depends_on ⟨_, hself, hcyc⟩
  exact ⟨circularMsg d0 h.ensureId.getId, addHook_of_validate_some g h _ heq,
    strContains_circularMsg _ _⟩

/-- Witness for C10: the self-dependent hook is rejected on the empty
graph. -/
theorem self_dependency_rejected_witness :
    ∃ msg, DependencyGraph.empty.addHook selfDepHook =
        (DependencyGraph.empty, some (HookError.configuration msg)) ∧
      strContains msg "circular dependency" = true :=
  self_dependency_rejected DependencyGraph.empty selfDepHook (by decide)

/-- C1 (code-bug evidence): `trigger_event` decides "critical failure"
by the substring "required" occurring in the failed hook's description
(`handle_execution_results`, manager.rs line 363), not by the
configuration's `required` flag. A failed async hook with
`required = true` and an ordinary description is swallowed (trigger
returns Ok), while a failed hook with `required = false` whose
description merely contains the word "required" makes trigger return
an error. -/
theorem trigger_event_ignores_required_flag :
    requiredQuietHook.required = true ∧
    optionalLabeledHook.required = false ∧
    triggerEvent true [requiredQuietHook] alwaysFailingExec 30 = .ok () ∧
    triggerEvent true [optionalLabeledHook] alwaysFailingExec 30 =
      .error (.execution
        "Critical hook failures detected: optional but required-sounding") := by
  refine ⟨rfl, rfl, ?_, ?_⟩ <;> rfl

end Hooks
namespace Hooks

/-- Helper: a key absent from the key list has no binding. -/
theorem alookup_eq_none {α : Type} :
    ∀ (l : List (String × α)) (k : String),
    k ∉ l.map Prod.fst → alookup l k = none := by
  intro l
  induction l with
  | nil => intro k _; rfl
  | cons p rest ih =>
    intro k hk
    rw [List.map_cons, List.mem_cons] at hk
    push_neg at hk
    rw [alookup, if_neg (fun he => hk.1 he.symm)]
    exact ih k hk.2

/-- Helper: a successful lookup is a list member. -/
theorem alookup_mem {α : Type} :
    ∀ (l : List (String × α)) (k : String) (v : α),
    alookup l k = some v → (k, v) ∈ l := by
  intro l
  induction l with
  | nil => intro k v h; simp [alookup] at h
  | cons p rest ih =>
    intro k v h
    rw [alookup] at h
    by_cases hpk : p.1 = k
    · rw [if_pos hpk] at h
      injection h with h
      rw [← hpk, ← h]
      exact List.mem_cons_self _ _
    · rw [if_neg hpk] at h
      exact List.mem_cons_of_mem _ (ih k v h)

/-- Helper: under unique keys, membership determines the lookup. -/
theorem mem_alookup {α : Type} :
    ∀ (l : List (String × α)) (k : String) (v : α),
    (l.map Prod.fst).Nodup → (k, v) ∈ l → alookup l k = some v := by
  intro l
  induction l with
  | nil => intro k v _ h; simp at h
  | cons p rest ih =>
    intro k v hnd hm
    rw [List.map_cons, List.nodup_cons] at hnd
    rcases List.mem_cons.mp hm with h | h
    · rw [alookup, if_pos (congrArg Prod.fst h).symm]
      rw [← h]
    · have hk : k ∈ rest.map Prod.fst :=
        List.mem_map.mpr ⟨(k, v), h, rfl⟩
      have hpk : p.1 ≠ k := fun he => hnd.1 (he ▸ hk)
      rw [alookup, if_neg hpk]
      exact ih k v hnd.2 h

/-- Helper: under unique keys, at most one value per key. -/
theorem entry_unique {α : Type} (l : List (String × α))
    (hnd : (l.map Prod.fst).Nodup) (k : String) (v w : α)
    (hv : (k, v) ∈ l) (hw : (k, w) ∈ l) : v = w := by
  have h1 := mem_alookup l k v hnd hv
  have h2 := mem_alookup l k w hnd hw
  rw [h1] at h2
  injection h2

/-- Helper: filtering by a key predicate commutes with taking keys. -/
theorem map_fst_filter_key {α : Type} (p : String → Bool) :
    ∀ l : List (String × α),
    (l.filter (fun q => p q.1)).map Prod.fst = (l.map Prod.fst).filter p := by
  intro l
  induction l with
  | nil => rfl
  | cons q rest ih =>
    rw [List.filter_cons, List.map_cons, List.filter_cons]
    by_cases hq : p q.1 = true
    · rw [if_pos hq, if_pos hq, List.map_cons, ih]
    · rw [Bool.not_eq_true] at hq
      rw [hq]
      simpa using ih

/-- Helper: folding the per-dependent decrement over a list
decrements every entry by its number of occurrences. -/
theorem foldl_alistDecr :
    ∀ (L : List String) (ind : List (String × Nat)),
    L.foldl (fun m depId => alistDecr m depId) ind =
      ind.map (fun p => (p.1, p.2 - L.count p.1)) := by
  intro L
  induction L with
  | nil =>
    intro ind
    simp
  | cons a L ih =>
    intro ind
    rw [List.foldl_cons, ih, alistDecr, List.map_map]
    apply List.map_congr_left
    intro p _
    by_cases hpa : p.1 = a
    · simp only [Function.comp_apply, Function.comp, if_pos hpa, List.count_cons,
        if_pos (show (a == p.1) = true from beq_iff_eq.mpr hpa.symm)]
      rw [Nat.sub_sub, Nat.add_comm]
    · simp only [Function.comp_apply, Function.comp, if_neg hpa, List.count_cons,
        if_neg (show ¬((a == p.1) = true) from fun hb => hpa (beq_iff_eq.mp hb).symm)]
      simp

/-- Helper: occurrences counted against a key set split into those
surviving the removal of one present key and the occurrences of that
key itself. -/
theorem countP_split_key (hid : String) (K : List String) (hmem : hid ∈ K) :
    ∀ deps : List String,
    deps.countP (fun d => decide (d ∈ K)) =
      deps.countP (fun d => decide (d ∈ K.filter (fun k => k ≠ hid))) +
        deps.count hid := by
  intro deps
  induction deps with
  | nil => simp
  | cons a rest ih =>
    rw [List.countP_cons, List.countP_cons, List.count_cons]
    by_cases ha : a = hid
    · have h1 : decide (a ∈ K) = true := by
        subst ha
        simpa using hmem
      have h2 : decide (a ∈ K.filter (fun k => k ≠ hid)) = false := by
        simp [ha]
      rw [h1, h2, if_pos (show (a == hid) = true from beq_iff_eq.mpr ha)]
      simp only [if_true, Bool.false_eq_true, if_false]
      omega
    · have hiff : decide (a ∈ K) = decide (a ∈ K.filter (fun k => k ≠ hid)) := by
        by_cases haK : a ∈ K
        · simp [haK, ha]
        · simp [haK]
      rw [hiff, if_neg (show ¬((a == hid) = true) from fun hb => ha (beq_iff_eq.mp hb))]
      omega

end Hooks

namespace Hooks

/-- Helper: removing one found ready hook from both maps and
decrementing its recorded dependents preserves the loop invariant. -/
theorem removeStep_inv (g : DependencyGraph) (S : List HookConfig)
    (HS : ∀ h ∈ S, (h.getId, h) ∈ g.hooks)
    (W3 : ∀ p ∈ g.hooks, ∀ q ∈ g.hooks,
      (g.getDependents q.1).count p.1 = p.2.depends_on.count q.1)
    (hm : List (String × HookConfig)) (ind : List (String × Nat))
    (hid : String) (h : HookConfig)
    (hinv : LoopInv S hm ind) (hlk : alookup hm hid = some h) :
    LoopInv S (alistErase hm hid)
      ((g.getDependents hid).foldl (fun m depId => alistDecr m depId)
        (alistErase ind hid)) := by
  obtain ⟨h1, h2, h3, h4⟩ := hinv
  have hmem_hm : (hid, h) ∈ hm := alookup_mem _ _ _ hlk
  have hid_mem : hid ∈ hm.map Prod.fst := List.mem_map.mpr ⟨(hid, h), hmem_hm, rfl⟩
  have e1 : (List.filter (fun p => decide (p.1 ≠ hid)) ind).map Prod.fst
      = (ind.map Prod.fst).filter (fun k => decide (k ≠ hid)) :=
    map_fst_filter_key (fun k => decide (k ≠ hid)) ind
  have e2 : (List.filter (fun p => decide (p.1 ≠ hid)) hm).map Prod.fst
      = (hm.map Prod.fst).filter (fun k => decide (k ≠ hid)) :=
    map_fst_filter_key (fun k => decide (k ≠ hid)) hm
  have hfold := foldl_alistDecr (g.getDependents hid)
    (List.filter (fun p => decide (p.1 ≠ hid)) ind)
  refine ⟨?_, ?_, ?_, ?_⟩
  · simp only [alistErase]
    rw [hfold]
    have hmf : ((List.filter (fun p => decide (p.1 ≠ hid)) ind).map
        (fun p => (p.1, p.2 - (g.getDependents hid).count p.1))).map Prod.fst =
        (List.filter (fun p => decide (p.1 ≠ hid)) ind).map Prod.fst := by
      rw [List.map_map]
      rfl
    rw [hmf, e1, h1]
    exact e2.symm
  · simp only [alistErase]
    rw [e2]
    exact h2.filter _
  · intro p hp
    simp only [alistErase] at hp
    exact h3 p (List.mem_of_mem_filter hp)
  · intro p hp
    simp only [alistErase] at hp ⊢
    rw [hfold] at hp
    obtain ⟨q, hq, hqp⟩ := List.mem_map.mp hp
    have hq_ind : q ∈ ind := List.mem_of_mem_filter hq
    have hq_ne : q.1 ≠ hid := by
      have := List.of_mem_filter hq
      simpa using this
    obtain ⟨hk, hk_hm, hk_val⟩ := h4 q hq_ind
    have hk_S : hk ∈ S ∧ hk.getId = q.1 := h3 (q.1, hk) hk_hm
    have hk_g : (q.1, hk) ∈ g.hooks := by
      have := HS hk hk_S.1
      rwa [hk_S.2] at this
    have hh_S : h ∈ S ∧ h.getId = hid := h3 (hid, h) hmem_hm
    have hh_g : (hid, h) ∈ g.hooks := by
      have := HS h hh_S.1
      rwa [hh_S.2] at this
    have hw3 : (g.getDependents hid).count q.1 = hk.depends_on.count hid :=
      W3 (q.1, hk) hk_g (hid, h) hh_g
    have hsplit := countP_split_key hid (hm.map Prod.fst) hid_mem hk.depends_on
    refine ⟨hk, ?_, ?_⟩
    · rw [← hqp]
      exact List.mem_filter.mpr ⟨hk_hm, by simpa using hq_ne⟩
    · rw [← hqp]
      simp only [e2]
      show q.2 - (g.getDependents hid).count q.1 =
        hk.depends_on.countP
          (fun d => decide (d ∈ (hm.map Prod.fst).filter (fun k => decide (k ≠ hid))))
      rw [hk_val, hw3, hsplit]
      omega

end Hooks

namespace Hooks

/-- Helper: one ready-set pass removes exactly the ready keys from
the hook map, preserves the loop invariant, and emits exactly the
hooks found under a ready id. -/
theorem processReady_spec (g : DependencyGraph) (S : List HookConfig)
    (HS : ∀ h ∈ S, (h.getId, h) ∈ g.hooks)
    (W3 : ∀ p ∈ g.hooks, ∀ q ∈ g.hooks,
      (g.getDependents q.1).count p.1 = p.2.depends_on.count q.1) :
    ∀ (ready : List String) (hm : List (String × HookConfig))
      (ind : List (String × Nat)), LoopInv S hm ind →
    (processReady g ready hm ind).hookMap =
        hm.filter (fun p => decide (p.1 ∉ ready)) ∧
    LoopInv S (processReady g ready hm ind).hookMap
      (processReady g ready hm ind).inDeg ∧
    (∀ hk : HookConfig,
      (hk ∈ (processReady g ready hm ind).par ∨
        hk ∈ (processReady g ready hm ind).seqs) ↔
      ∃ hid ∈ ready, (hid, hk) ∈ hm) := by
  intro ready
  induction ready with
  | nil =>
    intro hm ind hinv
    refine ⟨by simp [processReady], hinv, ?_⟩
    intro hk
    simp [processReady]
  | cons hid rest ih =>
    intro hm ind hinv
    cases hlk : alookup hm hid with
    | none =>
      have hnk : hid ∉ hm.map Prod.fst := by
        intro hmem
        obtain ⟨p, hp, hpf⟩ := List.mem_map.mp hmem
        have : alookup hm hid = some p.2 := by
          have := mem_alookup hm p.1 p.2 hinv.2.1 hp
          rwa [hpf] at this
        rw [hlk] at this
        exact Option.noConfusion this
      have hred : processReady g (hid :: rest) hm ind = processReady g rest hm ind := by
        rw [processReady, hlk]
      obtain ⟨hfm, hinv', hmemc⟩ := ih hm ind hinv
      rw [hred]
      refine ⟨?_, hinv', ?_⟩
      · rw [hfm]
        apply List.filter_congr
        intro p hp
        have hpne : p.1 ≠ hid := by
          intro he
          exact hnk (he ▸ List.mem_map.mpr ⟨p, hp, rfl⟩)
        simp [List.mem_cons, hpne]
      · intro hk
        rw [hmemc hk]
        constructor
        · rintro ⟨hid', hr, he⟩
          exact ⟨hid', List.mem_cons_of_mem _ hr, he⟩
        · rintro ⟨hid', hr, he⟩
          rcases List.mem_cons.mp hr with hr | hr
          · exact absurd (List.mem_map.mpr ⟨(hid', hk), he, congrArg Prod.fst rfl⟩)
              (hr ▸ hnk)
          · exact ⟨hid', hr, he⟩
    | some h =>
      have hmem_hm : (hid, h) ∈ hm := alookup_mem _ _ _ hlk
      have hstep := removeStep_inv g S HS W3 hm ind hid h hinv hlk
      obtain ⟨hfm, hinv', hmemc⟩ := ih (alistErase hm hid)
        ((g.getDependents hid).foldl (fun m depId => alistDecr m depId)
          (alistErase ind hid)) hstep
      have hred : processReady g (hid :: rest) hm ind =
          (if h.parallel then
            { processReady g rest (alistErase hm hid)
                ((g.getDependents hid).foldl (fun m depId => alistDecr m depId)
                  (alistErase ind hid)) with
              par := h :: (processReady g rest (alistErase hm hid)
                ((g.getDependents hid).foldl (fun m depId => alistDecr m depId)
                  (alistErase ind hid))).par }
          else
            { processReady g rest (alistErase hm hid)
                ((g.getDependents hid).foldl (fun m depId => alistDecr m depId)
                  (alistErase ind hid)) with
              seqs := h :: (processReady g rest (alistErase hm hid)
                ((g.getDependents hid).foldl (fun m depId => alistDecr m depId)
                  (alistErase ind hid))).seqs }) := by
        rw [processReady, hlk]
      have hmain : ∀ st1 : SortPassState,
          (st1 = processReady g (hid :: rest) hm ind) →
          st1.hookMap = (processReady g rest (alistErase hm hid)
            ((g.getDependents hid).foldl (fun m depId => alistDecr m depId)
              (alistErase ind hid))).hookMap ∧
          st1.inDeg = (processReady g rest (alistErase hm hid)
            ((g.getDependents hid).foldl (fun m depId => alistDecr m depId)
              (alistErase ind hid))).inDeg ∧
          (∀ hk, (hk ∈ st1.par ∨ hk ∈ st1.seqs) ↔
            (hk = h ∨ (hk ∈ (processReady g rest (alistErase hm hid)
              ((g.getDependents hid).foldl (fun m depId => alistDecr m depId)
                (alistErase ind hid))).par ∨
              hk ∈ (processReady g rest (alistErase hm hid)
                ((g.getDependents hid).foldl (fun m depId => alistDecr m depId)
                  (alistErase ind hid))).seqs))) := by
        intro st1 hst1
        rw [hst1, hred]
        by_cases hpar : h.parallel = true
        · rw [if_pos hpar]
          refine ⟨rfl, rfl, fun hk => ?_⟩
          simp only [List.mem_cons]
          tauto
        · rw [if_neg hpar]
          refine ⟨rfl, rfl, fun hk => ?_⟩
          simp only [List.mem_cons]
          tauto
      obtain ⟨hhm, hind, hps⟩ := hmain _ rfl
      refine ⟨?_, ?_, ?_⟩
      · rw [hhm, hfm, alistErase, List.filter_filter]
        apply List.filter_congr
        intro p _
        simp only [List.mem_cons, decide_not, not_or]
        by_cases hp1 : p.1 = hid
        · simp [hp1]
        · simp [hp1]
      · rw [hhm, hind]
        exact hinv'
      · intro hk
        rw [hps hk, hmemc hk]
        constructor
        · rintro (rfl | ⟨hid', hr, he⟩)
          · exact ⟨hid, List.mem_cons_self _ _, hmem_hm⟩
          · exact ⟨hid', List.mem_cons_of_mem _ hr,
              List.mem_of_mem_filter he⟩
        · rintro ⟨hid', hr, he⟩
          rcases List.mem_cons.mp hr with hr | hr
          · subst hr
            exact Or.inl (entry_unique hm hinv.2.1 hid' hk h he hmem_hm)
          · by_cases heq : hid' = hid
            · subst heq
              exact Or.inl (entry_unique hm hinv.2.1 hid' hk h he hmem_hm)
            · refine Or.inr ⟨hid', hr, ?_⟩
              rw [alistErase]
              exact List.mem_filter.mpr ⟨he, by simpa using heq⟩

end Hooks

namespace Hooks

/-- Helper: a finite nonempty set with no relational cycle inside it
has a member with no predecessor in the set. -/
theorem exists_min_of_acyclic {E : String → String → Prop} (T : List String)
    (hne : T ≠ [])
    (hacyc : ∀ x, ¬ Relation.TransGen (fun a b => a ∈ T ∧ b ∈ T ∧ E a b) x x) :
    ∃ t ∈ T, ∀ s ∈ T, ¬ E s t := by
  classical
  let r : {x // x ∈ T} → {x // x ∈ T} → Prop :=
    fun a b => Relation.TransGen (fun a b => a ∈ T ∧ b ∈ T ∧ E a b) a.1 b.1
  have hfin : Finite {x // x ∈ T} := by
    have hf : {x | x ∈ T}.Finite := T.finite_toSet
    exact hf.to_subtype
  have htrans : IsTrans _ r := ⟨fun a b c hab hbc => hab.trans hbc⟩
  have hirr : IsIrrefl _ r := ⟨fun a h => hacyc a.1 h⟩
  have hwf : WellFounded r := Finite.wellFounded_of_trans_of_irrefl r
  obtain ⟨t0⟩ : Nonempty {x // x ∈ T} := by
    cases T with
    | nil => exact absurd rfl hne
    | cons a rest => exact ⟨⟨a, List.mem_cons_self _ _⟩⟩
  obtain ⟨m, _, hmin⟩ := hwf.has_min Set.univ ⟨t0, trivial⟩
  refine ⟨m.1, m.2, ?_⟩
  intro s hs hE
  exact hmin ⟨s, hs⟩ trivial (Relation.TransGen.single ⟨hs, m.2, hE⟩)

/-- Helper: under the loop invariant and an acyclic in-set relation,
a nonempty hook map always yields a zero in-degree entry. -/
theorem exists_ready_entry (S : List HookConfig)
    (hm : List (String × HookConfig)) (ind : List (String × Nat))
    (hinv : LoopInv S hm ind) (hne : hm ≠ [])
    (hacyc : ∀ x, ¬ Relation.TransGen (InSetEdge S) x x) :
    ∃ p ∈ ind, p.2 = 0 := by
  have hTne : hm.map Prod.fst ≠ [] := by
    cases hm with
    | nil => exact absurd rfl hne
    | cons a rest => simp
  have hacyc' : ∀ x, ¬ Relation.TransGen
      (fun a b => a ∈ hm.map Prod.fst ∧ b ∈ hm.map Prod.fst ∧ InSetEdge S a b)
      x x := by
    intro x hx
    exact hacyc x (hx.mono (fun a b hab => hab.2.2))
  obtain ⟨t, htT, hmin⟩ := exists_min_of_acyclic (E := InSetEdge S)
    (hm.map Prod.fst) hTne hacyc'
  have ht_ind : t ∈ ind.map Prod.fst := hinv.1 ▸ htT
  obtain ⟨p, hp, hpt⟩ := List.mem_map.mp ht_ind
  obtain ⟨hk, hk_hm, hk_val⟩ := hinv.2.2.2 p hp
  refine ⟨p, hp, ?_⟩
  rw [hk_val, List.countP_eq_zero]
  intro d hd
  simp only [decide_eq_true_eq]
  intro hdT
  have hkS : hk ∈ S ∧ hk.getId = p.1 := hinv.2.2.1 (p.1, hk) hk_hm
  obtain ⟨pq, hpq, hpqf⟩ := List.mem_map.mp hdT
  have hdS := hinv.2.2.1 pq hpq
  refine hmin d hdT ?_
  refine ⟨⟨hk, hkS.1, ?_, hd⟩, ⟨pq.2, hdS.1, ?_⟩⟩
  · rw [hkS.2, hpt]
  · rw [hdS.2, hpqf]

end Hooks

namespace Hooks

/-- Helper: insertion keeps exactly the old members plus the new. -/
theorem mem_insertByPriority (h x : HookConfig) :
    ∀ l : List HookConfig, x ∈ insertByPriority h l ↔ x = h ∨ x ∈ l := by
  intro l
  induction l with
  | nil => simp [insertByPriority]
  | cons y rest ih =>
    rw [insertByPriority]
    by_cases hy : y.priority ≤ h.priority
    · rw [if_pos hy]
      simp only [List.mem_cons, ih]
      tauto
    · rw [if_neg hy]
      simp [List.mem_cons]

/-- Helper: sorting by priority preserves membership. -/
theorem mem_sortByPriority (x : HookConfig) (l : List HookConfig) :
    x ∈ sortByPriority l ↔ x ∈ l := by
  have haux : ∀ (l acc : List HookConfig),
      x ∈ l.foldl (fun a h => insertByPriority h a) acc ↔ x ∈ acc ∨ x ∈ l := by
    intro l
    induction l with
    | nil => intro acc; simp
    | cons y rest ih =>
      intro acc
      rw [List.foldl_cons, ih, mem_insertByPriority]
      simp only [List.mem_cons]
      tauto
  rw [sortByPriority, haux]
  simp

/-- Helper: filtering out a present element strictly shrinks a list. -/
theorem length_filter_lt_of_mem {α : Type} (p : α → Bool) (x : α) :
    ∀ l : List α, x ∈ l → p x = false → (l.filter p).length < l.length := by
  intro l
  induction l with
  | nil => intro h; simp at h
  | cons a rest ih =>
    intro hmem hpx
    rw [List.filter_cons]
    rcases List.mem_cons.mp hmem with heq | hmem
    · rw [← heq, hpx]
      have : (rest.filter p).length ≤ rest.length := List.length_filter_le _ _
      simpa using Nat.lt_succ_of_le this
    · by_cases hpa : p a = true
      · rw [if_pos hpa]
        simpa using Nat.succ_lt_succ (ih hmem hpx)
      · rw [Bool.not_eq_true] at hpa
        rw [hpa]
        simp only [Bool.false_eq_true, if_false]
        exact Nat.lt_succ_of_lt (ih hmem hpx)

end Hooks

namespace Hooks

/-- Helper (main loop correctness): under the loop invariant, enough
fuel and an acyclic in-set relation, the level loop succeeds, its plan
holds exactly the remaining hooks, and every dependency edge between
plan members points to a strictly earlier level. -/
theorem sortLoop_spec (g : DependencyGraph) (S : List HookConfig)
    (HS : ∀ h ∈ S, (h.getId, h) ∈ g.hooks)
    (W3 : ∀ p ∈ g.hooks, ∀ q ∈ g.hooks,
      (g.getDependents q.1).count p.1 = p.2.depends_on.count q.1)
    (hacyc : ∀ x, ¬ Relation.TransGen (InSetEdge S) x x) :
    ∀ (fuel : Nat) (hm : List (String × HookConfig)) (ind : List (String × Nat)),
      LoopInv S hm ind → hm.length ≤ fuel →
      ∃ plan, sortLoop g fuel hm ind = .ok plan ∧
        (∀ lv ∈ plan, ∀ hk ∈ lv, (hk.getId, hk) ∈ hm) ∧
        (∀ p ∈ hm, ∃ lv ∈ plan, p.2 ∈ lv) ∧
        (∀ (i j : Nat) (li lj : List HookConfig) (hi hj : HookConfig),
          plan[i]? = some li → plan[j]? = some lj →
          hi ∈ li → hj ∈ lj → hj.getId ∈ hi.depends_on → j < i) := by
  intro fuel
  induction fuel with
  | zero =>
    intro hm ind hinv hlen
    have hmnil : hm = [] := List.length_eq_zero.mp (Nat.le_zero.mp hlen)
    subst hmnil
    refine ⟨[], ?_, by simp, by simp, ?_⟩
    · rw [sortLoop]
      rfl
    · intro i j li lj hi hj h1 h2
      simp at h1
  | succ fuel ih =>
    intro hm ind hinv hlen
    by_cases hempty : hm.isEmpty = true
    · have hmnil : hm = [] := by simpa [List.isEmpty_iff] using hempty
      subst hmnil
      refine ⟨[], ?_, by simp, by simp, ?_⟩
      · rw [sortLoop]
        rfl
      · intro i j li lj hi hj h1 h2
        simp at h1
    · have hne : hm ≠ [] := by simpa [List.isEmpty_iff] using hempty
      obtain ⟨p0, hp0, hp0z⟩ := exists_ready_entry S hm ind hinv hne hacyc
      have hp0r : p0 ∈ ind.filter (fun p => decide (p.2 = 0)) :=
        List.mem_filter.mpr ⟨hp0, by simpa using hp0z⟩
      have hp0ready : p0.1 ∈ (ind.filter (fun p => decide (p.2 = 0))).map Prod.fst :=
        List.mem_map.mpr ⟨p0, hp0r, rfl⟩
      have hready_ne :
          ¬((ind.filter (fun p => decide (p.2 = 0))).map Prod.fst).isEmpty = true := by
        simp only [List.isEmpty_iff]
        exact List.ne_nil_of_mem hp0ready
      set ready := (ind.filter (fun p => decide (p.2 = 0))).map Prod.fst
        with hready_def
      obtain ⟨hfm, hinv', hmemc⟩ := processReady_spec g S HS W3 ready hm ind hinv
      set st := processReady g ready hm ind with hst_def
      set par1 := sortByPriority st.par with hpar_def
      set seqs1 := sortByPriority st.seqs with hseqs_def
      set levels := ((if par1.isEmpty then ([] : List (List HookConfig)) else [par1]) ++
        seqs1.map (fun hk => [hk])) with hlevels_def
      have hp0k : p0.1 ∈ hm.map Prod.fst := by
        rw [← hinv.1]
        exact List.mem_map.mpr ⟨p0, hp0, rfl⟩
      obtain ⟨pe, hpe, hpef⟩ := List.mem_map.mp hp0k
      have hlt : st.hookMap.length < hm.length := by
        rw [hfm]
        apply length_filter_lt_of_mem _ pe _ hpe
        simp only [decide_eq_false_iff_not, not_not]
        rw [hpef]
        exact hp0ready
      obtain ⟨rest, hrest_eq, hrestmem, hrestcomp, hrestord⟩ :=
        ih st.hookMap st.inDeg hinv' (by omega)
      have hlev_mem_fwd : ∀ lv ∈ levels, ∀ hk ∈ lv, hk ∈ st.par ∨ hk ∈ st.seqs := by
        intro lv hlv hk hklv
        rw [hlevels_def] at hlv
        rcases List.mem_append.mp hlv with hlv | hlv
        · by_cases hpe2 : par1.isEmpty = true
          · rw [if_pos hpe2] at hlv
            simp at hlv
          · rw [if_neg hpe2] at hlv
            have hlveq : lv = par1 := List.mem_singleton.mp hlv
            subst hlveq
            rw [hpar_def] at hklv
            exact Or.inl ((mem_sortByPriority hk st.par).mp hklv)
        · obtain ⟨x, hx, hlvx⟩ := List.mem_map.mp hlv
          have hkx : hk = x := by
            rw [← hlvx] at hklv
            simpa using hklv
          rw [hseqs_def] at hx
          exact Or.inr (hkx ▸ (mem_sortByPriority x st.seqs).mp hx)
      have hlev_mem_bwd : ∀ hk, (hk ∈ st.par ∨ hk ∈ st.seqs) →
          ∃ lv ∈ levels, hk ∈ lv := by
        intro hk hemit
        rcases hemit with hcase | hcase
        · have h1 : hk ∈ par1 := by
            rw [hpar_def]
            exact (mem_sortByPriority hk st.par).mpr hcase
          have hne1 : ¬par1.isEmpty = true := by
            simp only [List.isEmpty_iff]
            exact List.ne_nil_of_mem h1
          refine ⟨par1, ?_, h1⟩
          rw [hlevels_def, if_neg hne1]
          exact List.mem_append.mpr (Or.inl (List.mem_singleton.mpr rfl))
        · have h1 : hk ∈ seqs1 := by
            rw [hseqs_def]
            exact (mem_sortByPriority hk st.seqs).mpr hcase
          refine ⟨[hk], ?_, List.mem_singleton.mpr rfl⟩
          rw [hlevels_def]
          exact List.mem_append.mpr (Or.inr (List.mem_map.mpr ⟨hk, h1, rfl⟩))
      have hemit_entry : ∀ hk, (hk ∈ st.par ∨ hk ∈ st.seqs) → (hk.getId, hk) ∈ hm := by
        intro hk hemit
        obtain ⟨hid, _, hentry⟩ := (hmemc hk).mp hemit
        have hids := hinv.2.2.1 (hid, hk) hentry
        rw [show hk.getId = hid from hids.2]
        exact hentry
      have hready_nodeps : ∀ hk, (hk ∈ st.par ∨ hk ∈ st.seqs) →
          ∀ d ∈ hk.depends_on, d ∉ hm.map Prod.fst := by
        intro hk hemit d hd hdmem
        obtain ⟨hid, hidr, hentry⟩ := (hmemc hk).mp hemit
        rw [hready_def] at hidr
        obtain ⟨q, hq, hqf⟩ := List.mem_map.mp hidr
        have hq_ind : q ∈ ind := List.mem_of_mem_filter hq
        have hq_zero : q.2 = 0 := by
          have := List.of_mem_filter hq
          simpa using this
        obtain ⟨hk', hk'_hm, hk'_val⟩ := hinv.2.2.2 q hq_ind
        have hkeq : hk' = hk := entry_unique hm hinv.2.1 hid hk' hk
          (hqf ▸ hk'_hm) hentry
        rw [hq_zero, hkeq] at hk'_val
        have hz := List.countP_eq_zero.mp hk'_val.symm d hd
        simp only [decide_eq_true_eq] at hz
        exact hz hdmem
      have hplanmem : ∀ lv ∈ levels ++ rest, ∀ hk ∈ lv, (hk.getId, hk) ∈ hm := by
        intro lv hlv hk hklv
        rcases List.mem_append.mp hlv with hlv | hlv
        · exact hemit_entry hk (hlev_mem_fwd lv hlv hk hklv)
        · have hmem' := hrestmem lv hlv hk hklv
          rw [hfm] at hmem'
          exact List.mem_of_mem_filter hmem'
      refine ⟨levels ++ rest, ?_, hplanmem, ?_, ?_⟩
      · rw [sortLoop]
        rw [if_neg hempty]
        simp only []
        rw [← hready_def]
        rw [if_neg hready_ne]
        rw [← hst_def, ← hpar_def, ← hseqs_def, hrest_eq]
      · intro p hp
        by_cases hpr : p.1 ∈ ready
        · have hemit : p.2 ∈ st.par ∨ p.2 ∈ st.seqs := by
            apply (hmemc p.2).mpr
            exact ⟨p.1, hpr, hp⟩
          obtain ⟨lv, hlv, hklv⟩ := hlev_mem_bwd p.2 hemit
          exact ⟨lv, List.mem_append.mpr (Or.inl hlv), hklv⟩
        · have hpfil : p ∈ st.hookMap := by
            rw [hfm]
            exact List.mem_filter.mpr ⟨hp, by simpa using hpr⟩
          obtain ⟨lv, hlv, hklv⟩ := hrestcomp p hpfil
          exact ⟨lv, List.mem_append.mpr (Or.inr hlv), hklv⟩
      · intro i j li lj hi hj hgi hgj hmi hmj hedge
        by_cases hiL : i < levels.length
        · have hli : li ∈ levels := by
            rw [List.getElem?_append, if_pos hiL] at hgi
            exact List.getElem?_mem hgi
          have hemit := hlev_mem_fwd li hli hi hmi
          have hjm : (hj.getId, hj) ∈ hm := by
            have hlj : lj ∈ levels ++ rest := List.getElem?_mem hgj
            exact hplanmem lj hlj hj hmj
          have hjk : hj.getId ∈ hm.map Prod.fst :=
            List.mem_map.mpr ⟨(hj.getId, hj), hjm, rfl⟩
          exact absurd hjk (hready_nodeps hi hemit hj.getId hedge)
        · have hiL' : levels.length ≤ i := Nat.not_lt.mp hiL
          by_cases hjL : j < levels.length
          · omega
          · have hjL' : levels.length ≤ j := Nat.not_lt.mp hjL
            have hgi' : rest[i - levels.length]? = some li := by
              rw [List.getElem?_append, if_neg hiL] at hgi
              exact hgi
            have hgj' : rest[j - levels.length]? = some lj := by
              rw [List.getElem?_append, if_neg hjL] at hgj
              exact hgj
            have hord := hrestord (i - levels.length) (j - levels.length) li lj hi hj
              hgi' hgj' hmi hmj hedge
            omega

end Hooks

namespace Hooks

/-- Helper: inserting distinct fresh keys appends the bindings in
order. -/
theorem foldl_alistInsert_fresh {α : Type} (key : HookConfig → String)
    (val : HookConfig → α) :
    ∀ (l : List HookConfig) (acc : List (String × α)),
    (∀ h ∈ l, key h ∉ acc.map Prod.fst) → (l.map key).Nodup →
    l.foldl (fun m h => alistInsert m (key h) (val h)) acc =
      acc ++ l.map (fun h => (key h, val h)) := by
  intro l
  induction l with
  | nil => intro acc _ _; simp
  | cons h rest ih =>
    intro acc hfresh hnd
    rw [List.foldl_cons]
    have hnd' : (key h ∉ rest.map key) ∧ (rest.map key).Nodup := by
      rw [List.map_cons, List.nodup_cons] at hnd
      exact hnd
    have hkey : alookup acc (key h) = none :=
      alookup_eq_none acc (key h) (hfresh h (List.mem_cons_self _ _))
    rw [alistInsert, hkey]
    simp only [Option.isSome_none, Bool.false_eq_true, if_false]
    rw [ih (acc ++ [(key h, val h)]) ?_ hnd'.2]
    · simp
    · intro h2 hh2
      rw [List.map_append, List.mem_append]
      push_neg
      refine ⟨hfresh h2 (List.mem_cons_of_mem _ hh2), ?_⟩
      intro hmem
      have : key h2 = key h := by simpa using hmem
      exact hnd'.1 (this ▸ List.mem_map.mpr ⟨h2, hh2, rfl⟩)

/-- Helper: the maps `topological_sort` builds over a set with
distinct ids satisfy the loop invariant. -/
theorem initial_loopInv (S : List HookConfig)
    (hnd : (S.map HookConfig.getId).Nodup) :
    LoopInv S (S.map (fun h => (h.getId, h)))
      (S.map (fun h => (h.getId, depsInSet S h))) := by
  have hmemkeys : ∀ d : String,
      ((∃ h2 ∈ S, h2.getId = d) ↔
        d ∈ (S.map (fun hq => (hq.getId, hq))).map Prod.fst) := by
    intro d
    constructor
    · rintro ⟨h2, hh2, rfl⟩
      exact List.mem_map.mpr ⟨(h2.getId, h2), List.mem_map.mpr ⟨h2, hh2, rfl⟩, rfl⟩
    · intro hd
      obtain ⟨p, hp, hpf⟩ := List.mem_map.mp hd
      obtain ⟨h2, hh2, hph⟩ := List.mem_map.mp hp
      refine ⟨h2, hh2, ?_⟩
      rw [← hpf, ← hph]
  refine ⟨?_, ?_, ?_, ?_⟩
  · rw [List.map_map, List.map_map]
    rfl
  · have : (S.map (fun h => (h.getId, h))).map Prod.fst = S.map HookConfig.getId := by
      rw [List.map_map]
      rfl
    rw [this]
    exact hnd
  · intro p hp
    obtain ⟨h, hh, hph⟩ := List.mem_map.mp hp
    rw [← hph]
    exact ⟨hh, rfl⟩
  · intro p hp
    obtain ⟨h, hh, hph⟩ := List.mem_map.mp hp
    refine ⟨h, ?_, ?_⟩
    · rw [← hph]
      exact List.mem_map.mpr ⟨h, hh, rfl⟩
    · rw [← hph]
      show depsInSet S h = _
      rw [depsInSet]
      apply List.countP_congr
      intro d _
      by_cases hd : ∃ h2 ∈ S, h2.getId = d
      · have h1 : (S.any fun h2 => h2.getId == d) = true := by
          rw [List.any_eq_true]
          obtain ⟨h2, hh2, he⟩ := hd
          exact ⟨h2, hh2, beq_iff_eq.mpr he⟩
        have h2 : decide (d ∈ (S.map (fun hq => (hq.getId, hq))).map Prod.fst) = true :=
          decide_eq_true ((hmemkeys d).mp hd)
        rw [h1, h2]
      · have h1 : (S.any fun h2 => h2.getId == d) = false := by
          rw [← Bool.not_eq_true, List.any_eq_true]
          rintro ⟨h2, hh2, he⟩
          exact hd ⟨h2, hh2, beq_iff_eq.mp he⟩
        have h2 : decide (d ∈ (S.map (fun hq => (hq.getId, hq))).map Prod.fst) = false :=
          decide_eq_false (fun hmem => hd ((hmemkeys d).mpr hmem))
        rw [h1, h2]

end Hooks

namespace Hooks

/-- C3: for a well-formed graph whose filtered event set has an
acyclic in-set dependency relation, `get_ordered_hooks` succeeds,
every set member appears in the plan, and every hook sits in a
strictly later level than each of its dependencies that is itself in
the filtered set (dependencies outside the set impose no ordering
constraint: only in-set acyclicity is assumed). -/
theorem get_ordered_hooks_respects_dependencies (g : DependencyGraph)
    (et : LifecycleEventType) (hwf : GraphWf g)
    (hacyc : ∀ x, ¬ Relation.TransGen (InSetEdge (eventHooks g et)) x x) :
    ∃ plan, g.getOrderedHooks et = .ok plan ∧
      (∀ h ∈ eventHooks g et, ∃ lv ∈ plan, h ∈ lv) ∧
      (∀ (i j : Nat) (li lj : List HookConfig) (hi hj : HookConfig),
        plan[i]? = some li → plan[j]? = some lj →
        hi ∈ li → hj ∈ lj → hj.getId ∈ hi.depends_on → j < i) := by
  by_cases hemp : (eventHooks g et).isEmpty = true
  · refine ⟨[], ?_, ?_, ?_⟩
    · rw [DependencyGraph.getOrderedHooks, if_pos hemp]
    · intro h hh
      have hnil : eventHooks g et = [] := by simpa [List.isEmpty_iff] using hemp
      rw [hnil] at hh
      simp at hh
    · intro i j li lj hi hj h1 h2
      simp at h1
  · have HS : ∀ h ∈ eventHooks g et, (h.getId, h) ∈ g.hooks := by
      intro h hh
      have hh2 : h ∈ g.hooks.map Prod.snd := List.mem_of_mem_filter hh
      obtain ⟨p, hp, hps⟩ := List.mem_map.mp hh2
      rw [← hps, hwf.2.1 p hp]
      exact hp
    have hnd : ((eventHooks g et).map HookConfig.getId).Nodup := by
      have hsub : List.Sublist ((eventHooks g et).map HookConfig.getId)
          ((g.hooks.map Prod.snd).map HookConfig.getId) :=
        (List.filter_sublist _).map _
      have heq2 : (g.hooks.map Prod.snd).map HookConfig.getId =
          g.hooks.map Prod.fst := by
        rw [List.map_map]
        exact List.map_congr_left (fun p hp => hwf.2.1 p hp)
      exact hsub.nodup (heq2 ▸ hwf.1)
    have hm0eq : (eventHooks g et).foldl (fun m h => alistInsert m h.getId h)
        ([] : List (String × HookConfig)) =
        (eventHooks g et).map (fun h => (h.getId, h)) := by
      have := foldl_alistInsert_fresh HookConfig.getId (fun h => h)
        (eventHooks g et) [] (by simp) hnd
      simpa using this
    have hind0eq : (eventHooks g et).foldl
        (fun m h => alistInsert m h.getId (depsInSet (eventHooks g et) h))
        ([] : List (String × Nat)) =
        (eventHooks g et).map (fun h => (h.getId, depsInSet (eventHooks g et) h)) := by
      have := foldl_alistInsert_fresh HookConfig.getId
        (fun h => depsInSet (eventHooks g et) h) (eventHooks g et) [] (by simp) hnd
      simpa using this
    have hinv := initial_loopInv (eventHooks g et) hnd
    obtain ⟨plan, heq, _hmem, hcomp, hord⟩ := sortLoop_spec g (eventHooks g et)
      HS hwf.2.2 hacyc
      (((eventHooks g et).map (fun h => (h.getId, h))).length + 1)
      ((eventHooks g et).map (fun h => (h.getId, h)))
      ((eventHooks g et).map (fun h => (h.getId, depsInSet (eventHooks g et) h)))
      hinv (by omega)
    refine ⟨plan, ?_, ?_, hord⟩
    · rw [DependencyGraph.getOrderedHooks, if_neg hemp,
        DependencyGraph.topologicalSort]
      rw [hm0eq, hind0eq, heq]
    · intro h hh
      have hentry : (h.getId, h) ∈ (eventHooks g et).map (fun h => (h.getId, h)) :=
        List.mem_map.mpr ⟨h, hh, rfl⟩
      obtain ⟨lv, hlv, hmem2⟩ := hcomp (h.getId, h) hentry
      exact ⟨lv, hlv, hmem2⟩

end Hooks

namespace Hooks

/-- Helper: the A/B/C scenario's in-set edges all run from A to B or
C. -/
theorem parGraph_edge_shape (a b : String)
    (h : InSetEdge (eventHooks parGraph .sessionStart) a b) :
    a = "A" ∧ (b = "B" ∨ b = "C") := by
  have hS : eventHooks parGraph .sessionStart =
      [mkTestHook "A" [] 0 true, mkTestHook "B" ["A"] 1 true,
       mkTestHook "C" ["A"] 2 true] := rfl
  obtain ⟨⟨hk, hhk, hid, hdep⟩, -⟩ := h
  rw [hS] at hhk
  rcases List.mem_cons.mp hhk with rfl | hhk
  · simp [mkTestHook] at hdep
  rcases List.mem_cons.mp hhk with rfl | hhk
  · have hda : a = "A" := by simpa [mkTestHook] using hdep
    have hdb : b = "B" := by rw [← hid]; rfl
    exact ⟨hda, Or.inl hdb⟩
  rcases List.mem_cons.mp hhk with rfl | hhk
  · have hda : a = "A" := by simpa [mkTestHook] using hdep
    have hdb : b = "C" := by rw [← hid]; rfl
    exact ⟨hda, Or.inr hdb⟩
  · simp at hhk

/-- Helper: the A/B/C scenario's in-set relation is acyclic. -/
theorem parGraph_inset_acyclic :
    ∀ x, ¬ Relation.TransGen (InSetEdge (eventHooks parGraph .sessionStart)) x x := by
  have hfirst : ∀ u v,
      Relation.TransGen (InSetEdge (eventHooks parGraph .sessionStart)) u v →
      ∃ w, InSetEdge (eventHooks parGraph .sessionStart) u w := by
    intro u v h
    induction h with
    | single h => exact ⟨_, h⟩
    | tail _ _ ih => exact ih
  intro x hx
  cases hx with
  | single h =>
    obtain ⟨rfl, hb⟩ := parGraph_edge_shape _ _ h
    rcases hb with hb | hb <;> exact absurd hb (by decide)
  | tail hpath hlast =>
    obtain ⟨-, hb⟩ := parGraph_edge_shape _ _ hlast
    obtain ⟨w, hxw⟩ := hfirst _ _ hpath
    obtain ⟨rfl, -⟩ := parGraph_edge_shape _ _ hxw
    rcases hb with hb | hb <;> exact absurd hb (by decide)

/-- Witness for C3 at the concrete A/B/C scenario. -/
theorem get_ordered_hooks_respects_dependencies_witness :
    ∃ plan, parGraph.getOrderedHooks .sessionStart = .ok plan ∧
      (∀ h ∈ eventHooks parGraph .sessionStart, ∃ lv ∈ plan, h ∈ lv) ∧
      (∀ (i j : Nat) (li lj : List HookConfig) (hi hj : HookConfig),
        plan[i]? = some li → plan[j]? = some lj →
        hi ∈ li → hj ∈ lj → hj.getId ∈ hi.depends_on → j < i) :=
  get_ordered_hooks_respects_dependencies parGraph .sessionStart
    ⟨by decide, by decide, by decide⟩ parGraph_inset_acyclic

end Hooks
